import Mathlib

/-!
Verification of the ccl log-viewer core: entry classification, tool
correlation, filtering, and rendering (sources: main.go, filter.go,
display.go, json_output.go).

Records are decoded JSON objects (Go `map[string]interface{}`).  We model
JSON values with a mutual inductive so that all functions are structural
and computable.  Go maps are unordered; we canonicalize objects as
key-sorted association lists (insertion with overwrite models Go map
assignment, and Go's `encoding/json` marshals map keys in sorted order).
JSON numbers are modelled as integers (Go decodes every number into a
float64; fractional and exponent forms are outside this model).
-/

mutual

inductive JValue where
  | null : JValue
  | bool : Bool → JValue
  | num : Int → JValue
  | str : String → JValue
  | arr : JArr → JValue
  | obj : JObj → JValue

inductive JArr where
  | nil : JArr
  | cons : JValue → JArr → JArr

inductive JObj where
  | nil : JObj
  | cons : String → JValue → JObj → JObj

end

deriving instance DecidableEq for JValue, JArr, JObj
deriving instance Repr for JValue, JArr, JObj

def JArr.toList : JArr → List JValue
  | .nil => []
  | .cons v t => v :: t.toList

def JObj.toList : JObj → List (String × JValue)
  | .nil => []
  | .cons k v t => (k, v) :: t.toList

/-- Field lookup on a decoded object (Go `entry["key"]`); first match wins
(canonical objects have distinct keys). -/
def JObj.lookup : JObj → String → Option JValue
  | .nil, _ => none
  | .cons k v t, key => if k = key then some v else t.lookup key

/-- Go `entry["key"]` on a value that may not be an object: a nil map /
non-object yields absent. -/
def jGet : JValue → String → Option JValue
  | .obj o, key => o.lookup key
  | _, _ => none

/-- Go `x, ok := v.(string)` type assertion. -/
def jAsString : Option JValue → Option String
  | some (.str s) => some s
  | _ => none

/-- Go `x, _ := entry["key"].(string)`: failed assertion yields "". -/
def jGetStringD (v : JValue) (key : String) : String :=
  (jAsString (jGet v key)).getD ""

/-- Go `x, ok := v.([]interface{})` type assertion. -/
def jAsArr : Option JValue → Option (List JValue)
  | some (.arr a) => some a.toList
  | _ => none

/-- Go `m, ok := item.(map[string]interface{})` type assertion; we keep the
value whole (field access goes through jGet). -/
def jAsObj : Option JValue → Option JValue
  | some (.obj o) => some (.obj o)
  | _ => none

def jAsBool : Option JValue → Option Bool
  | some (.bool b) => some b
  | _ => none

/-!
Glob matching (filter.go, matchGlobRecursive / matchGlobPattern).

Go indexes a string with `pattern[pIdx]` / `str[sIdx]`, which yields raw
UTF-8 **bytes**, not runes: `?` consumes one byte, and a multi-byte rune
is compared byte by byte.  The model therefore works on the UTF-8 byte
lists of the two strings (each byte a Nat < 256; '*' is byte 42, '?' is
byte 63).  The Go function recurses on the indices; every recursive call
advances pIdx, so the remaining pattern length is carried as an explicit
structural argument (matchGlobAux's first parameter, always
pattern.length - pIdx): when it is zero the pattern is exhausted and the
match succeeds iff the subject is exhausted (the two checks at the top of
the Go function), otherwise the branches follow the Go source line by
line.
-/

/-- UTF-8 encoding of one character, as byte values. -/
def utf8Bytes (c : Char) : List Nat :=
  let n := c.toNat
  if n < 128 then [n]
  else if n < 2048 then [192 + n / 64, 128 + n % 64]
  else if n < 65536 then [224 + n / 4096, 128 + n / 64 % 64, 128 + n % 64]
  else [240 + n / 262144, 128 + n / 4096 % 64, 128 + n / 64 % 64, 128 + n % 64]

/-- The bytes of a Go string (Go strings are raw UTF-8; `s[i]` is a byte). -/
def strBytes (s : String) : List Nat :=
  s.data.foldr (fun c acc => utf8Bytes c ++ acc) []

def matchGlobAux : Nat → List Nat → List Nat → Nat → Nat → Bool
  | 0, _, str, _, sIdx =>
    -- Pattern exhausted: match iff string exhausted too
    decide (sIdx = str.length)
  | fuel + 1, pattern, str, pIdx, sIdx =>
    -- Handle * wildcard: try matching 0 or more bytes
    if pattern.getD pIdx 0 = 42 then
      (List.range (str.length + 1 - sIdx)).any fun k =>
        matchGlobAux fuel pattern str (pIdx + 1) (sIdx + k)
    -- String consumed
    else if sIdx = str.length then false
    -- Handle ? wildcard or exact byte match
    else if pattern.getD pIdx 0 = 63 ∨ pattern.getD pIdx 0 = str.getD sIdx 0 then
      matchGlobAux fuel pattern str (pIdx + 1) (sIdx + 1)
    else false

def matchGlobRecursive (pattern str : List Nat) (pIdx sIdx : Nat) : Bool :=
  matchGlobAux (pattern.length - pIdx) pattern str pIdx sIdx

/-- Match glob pattern against string (filter.go, matchGlobPattern):
byte-level matching of the two strings' UTF-8 bytes. -/
def matchGlobPattern (pattern str : String) : Bool :=
  matchGlobRecursive (strBytes pattern) (strBytes str) 0 0

/-- Declarative glob semantics over byte lists: a pattern matches the
whole subject (anchored); byte 42 ('*') matches zero or more bytes, byte
63 ('?') exactly one, any other pattern byte matches exactly itself
(case-sensitive). -/
inductive GlobSem : List Nat → List Nat → Prop where
  | nil : GlobSem [] []
  | star (p s1 s2 : List Nat) : GlobSem p s2 → GlobSem (42 :: p) (s1 ++ s2)
  | cons (c a : Nat) (p s : List Nat) :
      c ≠ 42 → (c = 63 ∨ c = a) → GlobSem p s → GlobSem (c :: p) (a :: s)

/-!
Configuration (main.go, Config) — the fields the core pipeline consumes.
-/

structure Config where
  Role : String := ""
  OutputFormat : String := "text"
  ToolExclude : String := ""
  ToolFilter : String := ""
  Compact : Bool := false
  Verbose : Bool := false
  NoColor : Bool := false
  ShowCost : Bool := false
  ShowTiming : Bool := false
deriving DecidableEq, Repr

/-!
Go maps used for tool correlation (main.go): toolUseMap maps a tool-use id
to the tool name, toolInputMap to the tool input object.  A Go map is an
unordered dictionary with overwrite-on-assign; we model it as an
association list where assignment prepends (so the newest binding for a
key shadows older ones) and lookup takes the first match.
-/

def goAssign {α : Type} (m : List (String × α)) (k : String) (v : α) :
    List (String × α) :=
  (k, v) :: m

def goLookup {α : Type} (m : List (String × α)) (k : String) : Option α :=
  (m.find? fun p => p.1 = k).map Prod.snd

/-- Go map indexing `m[k]` for a string-valued map: absent keys give the
zero value "". -/
def goLookupD (m : List (String × String)) (k : String) : String :=
  (goLookup m k).getD ""

abbrev ToolUseMap := List (String × String)
abbrev ToolInputMap := List (String × JValue)

/-!
Go standard-library string helpers used by the core (strings.Split,
strings.TrimSpace, strings.Join, strings.Contains, strings.HasPrefix,
strings.ReplaceAll with one-character arguments).  They are implemented
structurally over character lists so that the kernel can evaluate them.
-/

/-- Characters Go's strings.TrimSpace removes (unicode.IsSpace, Latin-1
range). -/
def isGoSpace (c : Char) : Bool :=
  c = ' ' ∨ c = '\t' ∨ c = '\n' ∨ c = '\x0b' ∨ c = '\x0c' ∨ c = '\r' ∨
    c.toNat = 133 ∨ c.toNat = 160

/-- Go strings.TrimSpace. -/
def goTrimSpace (s : String) : String :=
  String.mk (((s.data.dropWhile isGoSpace).reverse.dropWhile isGoSpace).reverse)

def splitCharAux (sep : Char) : List Char → List (List Char)
  | [] => [[]]
  | c :: rest =>
    match splitCharAux sep rest with
    | [] => [[c]]
    | h :: t => if c = sep then [] :: h :: t else (c :: h) :: t

/-- Go strings.Split with a one-character separator (never merges, keeps
empty fields, yields one field for the empty string). -/
def goSplitChar (s : String) (sep : Char) : List String :=
  (splitCharAux sep s.data).map String.mk

/-- Go strings.ReplaceAll with one-character pattern and replacement. -/
def goReplaceChar (s : String) (pat repl : Char) : String :=
  String.mk (s.data.map fun c => if c = pat then repl else c)

/-- Go strings.Join. -/
def goJoin (sep : String) : List String → String
  | [] => ""
  | [x] => x
  | x :: rest => x ++ sep ++ goJoin sep rest

def listContainsAux (sub : List Char) : List Char → Bool
  | [] => sub.isPrefixOf []
  | c :: rest => sub.isPrefixOf (c :: rest) || listContainsAux sub rest

/-- Go strings.Contains. -/
def goContains (s sub : String) : Bool := listContainsAux sub.data s.data

/-- Go strings.HasPrefix. -/
def goStartsWith (s pre : String) : Bool := pre.data.isPrefixOf s.data

/-!
filter.go
-/

/-- Parse comma-separated strings (filter.go, parseCommaSeparated):
split on ',', trim whitespace, drop empty parts. -/
def parseCommaSeparated (str : String) : List String :=
  if str = "" then []
  else ((goSplitChar str ',').map goTrimSpace).filter (fun part => part ≠ "")

/-- Check if an entry should be displayed based on role filters
(filter.go, shouldDisplayEntry).  The Go function also receives the entry
but never reads it. -/
def shouldDisplayEntry (cfg : Config) (msgType : String) : Bool :=
  let filterRoles := parseCommaSeparated cfg.Role
  if filterRoles = [] then true
  else filterRoles.any fun role => msgType = role

/-- Check if tool is excluded (filter.go, isToolExcluded). -/
def isToolExcluded (toolName : String) (excludeList : List String) : Bool :=
  excludeList.any fun pattern => matchGlobPattern pattern toolName

/-- Check if tool matches filter (filter.go, isToolFiltered): an empty
include list means include all. -/
def isToolFiltered (toolName : String) (filterList : List String) : Bool :=
  if filterList = [] then true
  else filterList.any fun pattern => matchGlobPattern pattern toolName

/-- Check if a tool name passes include/exclude filters (filter.go,
applyToolFilters): excludes first, then the include list. -/
def applyToolFilters (toolName : String) (includeList excludeList : List String) :
    Bool :=
  if isToolExcluded toolName excludeList then false
  else isToolFiltered toolName includeList

/-- Get tool name from content item (filter.go, getToolName). -/
def getToolName (m : JValue) (toolUseMap : ToolUseMap) : String :=
  match jAsString (jGet m "id") with
  | some id =>
    let toolName := goLookupD toolUseMap id
    if toolName ≠ "" then toolName
    else (jAsString (jGet m "name")).getD ""
  | none => (jAsString (jGet m "name")).getD ""

/-- Check if a tool result (a record of type "tool") should be displayed
(filter.go, shouldDisplayToolResult); resolves via parentMessageId. -/
def shouldDisplayToolResult (cfg : Config) (entry : JValue)
    (toolUseMap : ToolUseMap) : Bool :=
  let toolFilterList := parseCommaSeparated cfg.ToolFilter
  let toolExcludeList := parseCommaSeparated cfg.ToolExclude
  let parentID := jGetStringD entry "parentMessageId"
  let toolName := goLookupD toolUseMap parentID
  if toolName = "" then
    if toolFilterList ≠ [] then false
    else true
  else applyToolFilters toolName toolFilterList toolExcludeList

/-- Check if an assistant message with tools should be displayed
(filter.go, shouldDisplayAssistantWithTools). -/
def shouldDisplayAssistantWithTools (cfg : Config) (entry : JValue)
    (toolUseMap : ToolUseMap) : Bool :=
  let toolFilterList := parseCommaSeparated cfg.ToolFilter
  let toolExcludeList := parseCommaSeparated cfg.ToolExclude
  if toolFilterList = [] ∧ toolExcludeList = [] then true
  else
    match jAsObj (jGet entry "message") with
    | none => true
    | some message =>
      match jAsArr (jGet message "content") with
      | none => true
      | some content =>
        content.any fun item =>
          match jAsObj (some item) with
          | none => false
          | some m =>
            if jGet m "type" = some (.str "tool_use") then
              applyToolFilters (getToolName m toolUseMap) toolFilterList
                toolExcludeList
            else false

/-- Check if a user message contains tool results (filter.go,
hasToolResult). -/
def hasToolResult (entry : JValue) : Bool :=
  match jAsObj (jGet entry "message") with
  | none => false
  | some message =>
    match jAsArr (jGet message "content") with
    | none => false
    | some content =>
      content.any fun item =>
        match jAsObj (some item) with
        | none => false
        | some m => jGet m "type" = some (.str "tool_result")

/-- The tool-name resolution loop of filter.go's
shouldDisplayToolResultInUser: scan the content items for the first
object of type tool_result, look its tool_use_id up in the correlation
map (empty string when anything is missing). -/
def resolveUserToolName (content : List JValue) (toolUseMap : ToolUseMap) :
    String :=
  match content with
  | [] => ""
  | item :: rest =>
    match jAsObj (some item) with
    | none => resolveUserToolName rest toolUseMap
    | some m =>
      if jGet m "type" = some (.str "tool_result") then
        match jAsString (jGet m "tool_use_id") with
        | some toolUseID => goLookupD toolUseMap toolUseID
        | none => ""
      else resolveUserToolName rest toolUseMap

/-- Check if a tool result in a user message should be displayed
(filter.go, shouldDisplayToolResultInUser). -/
def shouldDisplayToolResultInUser (cfg : Config) (entry : JValue)
    (toolUseMap : ToolUseMap) : Bool :=
  let toolFilterList := parseCommaSeparated cfg.ToolFilter
  let toolExcludeList := parseCommaSeparated cfg.ToolExclude
  match jAsObj (jGet entry "message") with
  | none => true
  | some message =>
    match jAsArr (jGet message "content") with
    | none => true
    | some content =>
      let toolName := resolveUserToolName content toolUseMap
      if toolName = "" then
        if toolFilterList ≠ [] then false
        else true
      else applyToolFilters toolName toolFilterList toolExcludeList

/-- Check if a user message with tool results should be displayed
(filter.go, shouldDisplayUserWithToolResult). -/
def shouldDisplayUserWithToolResult (cfg : Config) (entry : JValue)
    (toolUseMap : ToolUseMap) : Bool :=
  let filterRoles := parseCommaSeparated cfg.Role
  if filterRoles = [] then true
  else
    let hasToolFilter := filterRoles.any fun role => role = "tool"
    let hasUserFilter := filterRoles.any fun role => role = "user"
    if hasToolResult entry then
      if hasToolFilter then shouldDisplayToolResultInUser cfg entry toolUseMap
      else false
    else
      if hasUserFilter then true
      else false

/-- Check if an entry should be displayed based on all filters (filter.go,
shouldDisplayEntryWithToolInfo). -/
def shouldDisplayEntryWithToolInfo (cfg : Config) (msgType : String)
    (entry : JValue) (toolUseMap : ToolUseMap) : Bool :=
  let toolFilterList := parseCommaSeparated cfg.ToolFilter
  let toolExcludeList := parseCommaSeparated cfg.ToolExclude
  let hasToolFilters := toolFilterList ≠ [] ∨ toolExcludeList ≠ []
  if hasToolFilters then
    -- If tool filters are specified, prioritize tool-based filtering
    if msgType = "user" then shouldDisplayUserWithToolResult cfg entry toolUseMap
    else if msgType = "assistant" then
      shouldDisplayAssistantWithTools cfg entry toolUseMap
    else if msgType = "tool" then shouldDisplayToolResult cfg entry toolUseMap
    else false
  else
    -- Fall back to role-based filtering; user messages may hold tool results
    if msgType = "user" then shouldDisplayUserWithToolResult cfg entry toolUseMap
    else if ¬shouldDisplayEntry cfg msgType then false
    else if msgType = "tool" then shouldDisplayToolResult cfg entry toolUseMap
    else if msgType = "assistant" then
      shouldDisplayAssistantWithTools cfg entry toolUseMap
    else true

/-!
Model of Go `encoding/json` serialization (json.Marshal /
json.MarshalIndent) restricted to the value domain above.  Marshal emits
object keys in sorted order (Go sorts map keys); strings are escaped the
way Go's HTML-safe encoder does; integers print in decimal.
-/

/-- Decimal digits of a natural number, most significant first; the fuel
argument (any bound > n works) keeps the recursion structural so that the
kernel can evaluate it. -/
def natDigitsAux : Nat → Nat → List Char
  | 0, _ => []
  | fuel + 1, n =>
    if n < 10 then [Char.ofNat (n + 48)]
    else natDigitsAux fuel (n / 10) ++ [Char.ofNat (n % 10 + 48)]

def natStr (n : Nat) : List Char := natDigitsAux (n + 1) n

/-- Decimal rendering of an integer (Go strconv / json number output). -/
def intStr (n : Int) : List Char :=
  if n < 0 then '-' :: natStr n.natAbs else natStr n.toNat

/-- Lowercase hexadecimal digit (Go json \u00xx escapes use lowercase). -/
def hexDigitChar (n : Nat) : Char :=
  if n < 10 then Char.ofNat (n + 48) else Char.ofNat (n + 87)

/-- Go json string escaping, per character: quotes, backslashes, \n \r \t,
other control characters as \u00xx, the HTML-unsafe characters as \u00xx,
and U+2028/U+2029 as  / ; everything else verbatim. -/
def marshalStringChars : List Char → List Char
  | [] => []
  | c :: rest =>
    (if c = '"' then ['\\', '"']
     else if c = '\\' then ['\\', '\\']
     else if c = '\n' then ['\\', 'n']
     else if c = '\r' then ['\\', 'r']
     else if c = '\t' then ['\\', 't']
     else if c.toNat < 32 ∨ c = '<' ∨ c = '>' ∨ c = '&' then
       ['\\', 'u', '0', '0', hexDigitChar (c.toNat / 16), hexDigitChar (c.toNat % 16)]
     else if c.toNat = 8232 then ['\\', 'u', '2', '0', '2', '8']
     else if c.toNat = 8233 then ['\\', 'u', '2', '0', '2', '9']
     else [c]) ++ marshalStringChars rest

def marshalStr (s : String) : List Char :=
  '"' :: (marshalStringChars s.data ++ ['"'])

/-- Byte-lexicographic order on strings as lists of characters (Go string
comparison; on valid Unicode, UTF-8 byte order equals code-point order). -/
def strLtB : List Char → List Char → Bool
  | [], [] => false
  | [], _ :: _ => true
  | _ :: _, [] => false
  | a :: as, b :: bs =>
    if a < b then true else if b < a then false else strLtB as bs

def keyLt (a b : String) : Bool := strLtB a.data b.data

mutual

def JValue.marshal : JValue → List Char
  | .null => 'n' :: 'u' :: 'l' :: 'l' :: []
  | .bool true => 't' :: 'r' :: 'u' :: 'e' :: []
  | .bool false => 'f' :: 'a' :: 'l' :: 's' :: 'e' :: []
  | .num n => intStr n
  | .str s => marshalStr s
  | .arr .nil => '[' :: ']' :: []
  | .arr (.cons v t) => '[' :: (v.marshal ++ (t.marshalTail ++ [']']))
  | .obj .nil => '{' :: '}' :: []
  | .obj (.cons k v t) =>
    '{' :: (marshalStr k ++ (':' :: (v.marshal ++ (t.marshalTail ++ ['}']))))

def JArr.marshalTail : JArr → List Char
  | .nil => []
  | .cons v t => ',' :: (v.marshal ++ t.marshalTail)

def JObj.marshalTail : JObj → List Char
  | .nil => []
  | .cons k v t => ',' :: (marshalStr k ++ (':' :: (v.marshal ++ t.marshalTail)))

end

/-- One output line of Go `json.Marshal` as a string. -/
def jsonMarshal (v : JValue) : String := String.mk v.marshal

def indentChars (depth : Nat) : List Char := List.replicate (2 * depth) ' '

mutual

/-- Go `json.MarshalIndent(v, "", "  ")`. -/
def JValue.marshalIndent (depth : Nat) : JValue → List Char
  | .arr .nil => '[' :: ']' :: []
  | .arr (.cons v t) =>
    '[' :: '\n' :: (indentChars (depth + 1) ++
      (v.marshalIndent (depth + 1) ++ (t.marshalIndentTail depth ++
        ('\n' :: (indentChars depth ++ [']'])))))
  | .obj .nil => '{' :: '}' :: []
  | .obj (.cons k v t) =>
    '{' :: '\n' :: (indentChars (depth + 1) ++
      (marshalStr k ++ (':' :: ' ' :: (v.marshalIndent (depth + 1) ++
        (t.marshalIndentTail depth ++ ('\n' :: (indentChars depth ++ ['}'])))))))
  | v => v.marshal

def JArr.marshalIndentTail (depth : Nat) : JArr → List Char
  | .nil => []
  | .cons v t =>
    ',' :: '\n' :: (indentChars (depth + 1) ++
      (v.marshalIndent (depth + 1) ++ t.marshalIndentTail depth))

def JObj.marshalIndentTail (depth : Nat) : JObj → List Char
  | .nil => []
  | .cons k v t =>
    ',' :: '\n' :: (indentChars (depth + 1) ++
      (marshalStr k ++ (':' :: ' ' :: (v.marshalIndent (depth + 1) ++
        t.marshalIndentTail depth))))

end

def jsonMarshalIndent (v : JValue) : String := String.mk (v.marshalIndent 0)

/-!
Model of Go `json.Unmarshal` for one JSONL line decoded into
`map[string]interface{}`.  A recursive-descent parser over the character
list; objects are canonicalized into key-sorted association lists with
last-duplicate-wins (Go map semantics).  The fuel argument bounds the
recursion depth structurally; `parseLine` supplies enough fuel for its
input.
-/

def skipWs : List Char → List Char
  | [] => []
  | c :: rest =>
    if c = ' ' ∨ c = '\t' ∨ c = '\n' ∨ c = '\r' then skipWs rest
    else c :: rest

/-- Consume a maximal run of decimal digits, accumulating their value. -/
def parseNatLoop (acc : Nat) : List Char → Nat × List Char
  | [] => (acc, [])
  | c :: rest =>
    if c.isDigit then parseNatLoop (acc * 10 + (c.toNat - 48)) rest
    else (acc, c :: rest)

def parseHexDigit (c : Char) : Option Nat :=
  if '0' ≤ c ∧ c ≤ '9' then some (c.toNat - 48)
  else if 'a' ≤ c ∧ c ≤ 'f' then some (c.toNat - 87)
  else if 'A' ≤ c ∧ c ≤ 'F' then some (c.toNat - 55)
  else none

/-- Parse a JSON string body after the opening quote, returning the
decoded characters and the remainder after the closing quote.  Raw control
characters are rejected; \uXXXX escapes for surrogate code points are not
modelled (Go substitutes replacement characters there). -/
def parseStringChars : List Char → Option (List Char × List Char)
  | [] => none
  | c :: rest =>
    if c = '"' then some ([], rest)
    else if c = '\\' then
      match rest with
      | [] => none
      | e :: rest2 =>
        if e = 'u' then
          match rest2 with
          | h1 :: h2 :: h3 :: h4 :: rest3 => do
            let d1 ← parseHexDigit h1
            let d2 ← parseHexDigit h2
            let d3 ← parseHexDigit h3
            let d4 ← parseHexDigit h4
            let code := ((d1 * 16 + d2) * 16 + d3) * 16 + d4
            if 55296 ≤ code ∧ code < 57344 then none
            else
              let (cs, r) ← parseStringChars rest3
              some (Char.ofNat code :: cs, r)
          | _ => none
        else do
          let c2 ←
            if e = '"' then some '"'
            else if e = '\\' then some '\\'
            else if e = '/' then some '/'
            else if e = 'b' then some (Char.ofNat 8)
            else if e = 'f' then some (Char.ofNat 12)
            else if e = 'n' then some '\n'
            else if e = 'r' then some '\r'
            else if e = 't' then some '\t'
            else none
          let (cs, r) ← parseStringChars rest2
          some (c2 :: cs, r)
    else if c.toNat < 32 then none
    else do
      let (cs, r) ← parseStringChars rest
      some (c :: cs, r)

/-- Insert a member into a key-sorted object, overwriting an existing
binding for the same key (canonical form of a Go map). -/
def JObj.insertMember : JObj → String → JValue → JObj
  | .nil, k, v => .cons k v .nil
  | .cons k' v' t, k, v =>
    if keyLt k k' then .cons k v (.cons k' v' t)
    else if k = k' then .cons k v t
    else .cons k' v' (t.insertMember k v)

mutual

def parseValue : Nat → List Char → Option (JValue × List Char)
  | 0, _ => none
  | fuel + 1, s =>
    match skipWs s with
    | [] => none
    | c :: rest =>
      if c = 'n' then
        match rest with
        | 'u' :: 'l' :: 'l' :: r => some (.null, r)
        | _ => none
      else if c = 't' then
        match rest with
        | 'r' :: 'u' :: 'e' :: r => some (.bool true, r)
        | _ => none
      else if c = 'f' then
        match rest with
        | 'a' :: 'l' :: 's' :: 'e' :: r => some (.bool false, r)
        | _ => none
      else if c = '"' then do
        let (cs, r) ← parseStringChars rest
        some (.str (String.mk cs), r)
      else if c = '[' then
        match skipWs rest with
        | ']' :: r => some (.arr .nil, r)
        | other => do
          let (a, r) ← parseItems fuel other
          some (.arr a, r)
      else if c = '{' then
        match skipWs rest with
        | '}' :: r => some (.obj .nil, r)
        | other => do
          let (o, r) ← parseMembers fuel .nil other
          some (.obj o, r)
      else if c = '-' then
        match rest with
        | c2 :: rest2 =>
          if c2.isDigit then
            if c2 == '0' && (match rest2 with
                             | c3 :: _ => c3.isDigit
                             | [] => false) then none
            else
              let (n, r) := parseNatLoop (c2.toNat - 48) rest2
              some (.num (-(n : Int)), r)
          else none
        | [] => none
      else if c.isDigit then
        if c == '0' && (match rest with
                        | c2 :: _ => c2.isDigit
                        | [] => false) then none
        else
          let (n, r) := parseNatLoop (c.toNat - 48) rest
          some (.num (n : Int), r)
      else none

def parseItems : Nat → List Char → Option (JArr × List Char)
  | 0, _ => none
  | fuel + 1, s => do
    let (v, r) ← parseValue fuel s
    match skipWs r with
    | [] => none
    | c :: r2 =>
      if c = ',' then do
        let (t, r3) ← parseItems fuel r2
        some (.cons v t, r3)
      else if c = ']' then some (.cons v .nil, r2)
      else none

def parseMembers : Nat → JObj → List Char → Option (JObj × List Char)
  | 0, _, _ => none
  | fuel + 1, acc, s =>
    match skipWs s with
    | [] => none
    | c :: rest =>
      if c = '"' then do
        let (ks, r) ← parseStringChars rest
        match skipWs r with
        | [] => none
        | c2 :: r2 =>
          if c2 = ':' then do
            let (v, r3) ← parseValue fuel r2
            let acc2 := acc.insertMember (String.mk ks) v
            match skipWs r3 with
            | [] => none
            | c3 :: r4 =>
              if c3 = ',' then parseMembers fuel acc2 r4
              else if c3 = '}' then some (acc2, r4)
              else none
          else none
      else none

end

/-- Decode one JSONL line the way `json.Unmarshal(line, &entry)` does for
`entry map[string]interface{}`: the line must be a whole JSON value with
nothing but whitespace after it, and the top-level value must be an object
or null (null leaves the map nil); anything else is a decode error. -/
def parseLine (line : String) : Option JValue :=
  match parseValue (line.data.length + 1) line.data with
  | some (v, rest) =>
    if skipWs rest = [] then
      match v with
      | .obj o => some (.obj o)
      | .null => some .null
      | _ => none
    else none
  | none => none

/-!
display.go — rendering.  Each Go display function returns here the exact
string it writes to stdout (fmt.Printf / fmt.Println concatenated).  The
process-wide mutable `lastTimestamp` (Go time.Time; its zero value is
modelled as none) is threaded explicitly.  Wall-clock parsing/formatting
(time.Parse RFC3339Nano, Local, Format "15:04:05") and the pricing
collaborator (pricing fetch + float cost arithmetic, an external
collaborator per the spec) are environment parameters: instants are
nanosecond integers, and costStr returns the formatted "%.4f" figure
exactly when the computed cost is positive.
-/

structure DState where
  lastTimestamp : Option Int := none
deriving DecidableEq, Repr

structure ExtEnv where
  parseTime : String → Option Int
  fmtHMS : Int → String
  costStr : JValue → String → Option String

def colorReset : String := "\x1b[0m"
def colorRed : String := "\x1b[31m"
def colorGreen : String := "\x1b[32m"
def colorYellow : String := "\x1b[33m"
def colorBlue : String := "\x1b[34m"
def colorPurple : String := "\x1b[35m"
def colorCyan : String := "\x1b[36m"
def colorGray : String := "\x1b[90m"
def colorBold : String := "\x1b[1m"

/-- Helper function to apply color (display.go, color). -/
def color (cfg : Config) (c : String) : String :=
  if cfg.NoColor then "" else c

/-- Elapsed-duration formatting from display.go, formatTimestamp:
milliseconds under a second, one-decimal seconds under a minute, else
minutes and seconds.  The sub-minute branch approximates Go's float
"%.1f" by nearest-tenth integer rounding. -/
def fmtElapsed (elapsed : Int) : String :=
  if elapsed < 1000000000 then
    "+" ++ toString (Int.tdiv elapsed 1000000) ++ "ms"
  else if elapsed < 60000000000 then
    let tenths := Int.tdiv (elapsed + 50000000) 100000000
    "+" ++ toString (Int.tdiv tenths 10) ++ "." ++ toString (Int.tmod tenths 10) ++ "s"
  else
    "+" ++ toString (Int.tdiv elapsed 60000000000) ++ "m" ++
      toString (Int.tmod (Int.tdiv elapsed 1000000000) 60) ++ "s"

/-- Format timestamp for display (display.go, formatTimestamp): parse
failure renders "00:00:00" and leaves the cursor alone; otherwise the
cursor is set to the parsed local time, with an elapsed annotation when
timing is on and a previous timestamp exists. -/
def formatTimestamp (ext : ExtEnv) (cfg : Config) (timestamp : String)
    (st : DState) : String × DState :=
  match ext.parseTime timestamp with
  | none => ("00:00:00", st)
  | some t =>
    if cfg.ShowTiming then
      match st.lastTimestamp with
      | some t0 =>
        (ext.fmtHMS t ++ " " ++ fmtElapsed (t - t0), { lastTimestamp := some t })
      | none => (ext.fmtHMS t, { lastTimestamp := some t })
    else (ext.fmtHMS t, { lastTimestamp := some t })

/-- Synthetic text block the Go code builds for bare-string content. -/
def mkTextBlock (s : String) : JValue :=
  .obj (.cons "text" (.str s) (.cons "type" (.str "text") .nil))

/-- Extract content array from message (display.go, extractContent):
string content becomes one text block; array content keeps the object
items; anything else is empty. -/
def extractContent (message : JValue) : List JValue :=
  match jAsString (jGet message "content") with
  | some s => [mkTextBlock s]
  | none =>
    match jAsArr (jGet message "content") with
    | some items => items.filterMap fun item => jAsObj (some item)
    | none => []

/-- Extract text content from message (display.go, extractTextContent). -/
def extractTextContent (message : JValue) : String :=
  match jAsString (jGet message "content") with
  | some s => s
  | none =>
    match jAsArr (jGet message "content") with
    | some items => firstTextIn items
    | none => ""
where
  firstTextIn : List JValue → String
    | [] => ""
    | item :: rest =>
      match jAsObj (some item) with
      | some m =>
        if jGet m "type" = some (.str "text") then
          match jAsString (jGet m "text") with
          | some text => text
          | none => firstTextIn rest
        else firstTextIn rest
      | none => firstTextIn rest

/-- Truncate string by rune count (display.go, truncateRunes). -/
def truncateRunes (s : String) (maxRunes : Nat) : String :=
  if s = "" then s
  else if s.data.length ≤ maxRunes then s
  else String.mk (s.data.take maxRunes) ++ "..."

/-- Get brief summary of message for compact mode (display.go,
getMessageSummary). -/
def getMessageSummary (message : JValue) : String :=
  let content := extractContent message
  if content = [] then ""
  else
    let parts := content.foldl (fun parts item =>
      if jGet item "type" = some (.str "text") then
        match jAsString (jGet item "text") with
        | some text =>
          let lines := goSplitChar text '\n'
          let firstLine := goTrimSpace (lines.headD "")
          parts ++ [truncateRunes firstLine 60]
        | none => parts
      else if jGet item "type" = some (.str "tool_use") then
        match jAsString (jGet item "name") with
        | some name =>
          let toolSummary :=
            if name = "Bash" then
              match jAsObj (jGet item "input") with
              | some input =>
                match jAsString (jGet input "command") with
                | some cmd =>
                  "[Tool: Bash] " ++
                    truncateRunes (goTrimSpace (goReplaceChar cmd '\n' ' ')) 40
                | none => "[Tool: " ++ name ++ "]"
              | none => "[Tool: " ++ name ++ "]"
            else "[Tool: " ++ name ++ "]"
          parts ++ [toolSummary]
        | none => parts
      else if jGet item "type" = some (.str "tool_result") then
        match jAsString (jGet item "content") with
        | some c =>
          let lines := goSplitChar c '\n'
          if lines ≠ [] ∧ lines.headD "" ≠ "" then
            parts ++
              ["[Result: " ++ truncateRunes (goTrimSpace (lines.headD "")) 40 ++ "]"]
          else parts ++ ["[Tool Result]"]
        | none => parts ++ ["[Tool Result]"]
      else parts) []
    goJoin " " parts

/-- Display text content (display.go, displayText). -/
def displayText (text indent : String) : String :=
  String.join ((goSplitChar text '\n').map fun line => indent ++ line ++ "\n")

/-- Display text content with line limit (display.go,
displayTextTruncated). -/
def displayTextTruncated (cfg : Config) (text indent : String)
    (maxLines : Nat) : String :=
  let lines := goSplitChar text '\n'
  let totalLines := lines.length
  if totalLines ≤ maxLines + 2 then
    String.join (lines.map fun line => indent ++ line ++ "\n")
  else
    String.join ((lines.take maxLines).map fun line => indent ++ line ++ "\n") ++
      indent ++ color cfg colorGray ++ "... (" ++
      toString (totalLines - maxLines) ++ " more lines)" ++ colorReset ++ "\n"

/-- Display key parameters for tool input (display.go,
displayToolInputKeyParams). -/
def displayToolInputKeyParams (cfg : Config) (input : JValue)
    (toolName indent : String) : String :=
  if toolName = "Edit" ∨ toolName = "MultiEdit" ∨ toolName = "Write" ∨
      toolName = "Read" then
    match jAsString (jGet input "file_path") with
    | some filePath =>
      indent ++ color cfg colorGray ++ "file_path:" ++ colorReset ++ " " ++
        filePath ++ "\n"
    | none => ""
  else ""

/-- Display Bash tool input (display.go, displayBashInput). -/
def displayBashInput (cfg : Config) (input : JValue) (indent : String) :
    String :=
  (match jAsString (jGet input "command") with
   | some cmd =>
     indent ++ color cfg colorGray ++ "command:" ++ colorReset ++ " " ++ cmd ++ "\n"
   | none => "") ++
  (match jAsString (jGet input "description") with
   | some desc =>
     indent ++ color cfg colorGray ++ "description:" ++ colorReset ++ " " ++
       desc ++ "\n"
   | none => "")

/-- Display Task tool input (display.go, displayTaskInput). -/
def displayTaskInput (cfg : Config) (input : JValue) (indent : String) :
    String :=
  (match jAsString (jGet input "prompt") with
   | some prompt =>
     indent ++ color cfg colorGray ++ "prompt:" ++ colorReset ++ " " ++
       prompt ++ "\n"
   | none => "") ++
  (match jAsString (jGet input "description") with
   | some desc =>
     indent ++ color cfg colorGray ++ "description:" ++ colorReset ++ " " ++
       desc ++ "\n"
   | none => "")

/-- Value rendering of one MCP tool input entry (display.go,
displayMCPToolInput switch body). -/
def mcpValueStr (value : JValue) : String :=
  match value with
  | .str v =>
    if v.utf8ByteSize > 100 then truncateRunes v 80 ++ "\n"
    else if goContains v "\n" then
      let lines := goSplitChar v '\n'
      let firstLine := goTrimSpace (lines.headD "")
      if lines.length > 1 then
        truncateRunes firstLine 60 ++ "... (" ++ toString (lines.length - 1) ++
          " more lines)\n"
      else firstLine ++ "\n"
    else v ++ "\n"
  | .arr a => "[" ++ toString a.toList.length ++ " items]\n"
  | .obj o => "\x7b" ++ toString o.toList.length ++ " keys\x7d\n"
  | .bool b => toString b ++ "\n"
  | .num n => toString n ++ "\n"
  | .null =>
    let jsonStr := jsonMarshal .null
    if jsonStr.utf8ByteSize > 100 then truncateRunes jsonStr 80 ++ "\n"
    else jsonStr ++ "\n"

/-- Display MCP tool input (display.go, displayMCPToolInput).  Go ranges
over the input map in unspecified order; the model iterates the canonical
(key-sorted) order. -/
def displayMCPToolInput (cfg : Config) (input : JValue)
    (toolName indent : String) : String :=
  match input with
  | .obj o =>
    String.join (o.toList.map fun kv =>
      indent ++ color cfg colorGray ++ kv.1 ++ ":" ++ colorReset ++ " " ++
        mcpValueStr kv.2)
  | _ => ""

/-- Generic key: value rendering in displayToolInput's default branch
(display.go). -/
def genericInputValueStr (indent : String) (value : JValue) : String :=
  match value with
  | .str v =>
    if goContains v "\n" then "\n" ++ displayText v (indent ++ "  ")
    else v ++ "\n"
  | v => jsonMarshalIndent v ++ "\n"

/-- Display tool input based on tool type (display.go, displayToolInput;
reached for non-MCP tools in verbose or compact mode). -/
def displayToolInput (cfg : Config) (input : JValue)
    (toolName indent : String) : String :=
  if toolName = "Bash" then displayBashInput cfg input indent
  else if toolName = "Task" then displayTaskInput cfg input indent
  else if toolName = "Read" ∨ toolName = "Write" then
    (match jAsString (jGet input "file_path") with
     | some path => indent ++ "File: " ++ path ++ "\n"
     | none => "") ++
    (match jAsString (jGet input "content") with
     | some content => displayText content indent
     | none => "")
  else if toolName = "Edit" ∨ toolName = "MultiEdit" then
    (match jAsString (jGet input "file_path") with
     | some path => indent ++ "File: " ++ path ++ "\n"
     | none => "") ++
    (match jAsArr (jGet input "edits") with
     | some edits => indent ++ "Edits: " ++ toString edits.length ++ " changes\n"
     | none => "")
  else
    match input with
    | .obj o =>
      String.join (o.toList.map fun kv =>
        indent ++ kv.1 ++ ": " ++ genericInputValueStr indent kv.2)
    | _ => ""

/-- Display tool use (display.go, displayToolUse, the version whose line
numbers the claims cite). -/
def displayToolUse (cfg : Config) (tool : JValue) (indent : String) : String :=
  let toolName := (jAsString (jGet tool "name")).getD ""
  indent ++ color cfg colorYellow ++ "[Tool Use]" ++ colorReset ++
  (match jAsString (jGet tool "name") with
   | some name => " " ++ name
   | none => "") ++
  (match jAsString (jGet tool "id") with
   | some id =>
     " " ++ color cfg colorGray ++ "(ID: " ++ id ++ ")" ++ colorReset
   | none => "") ++
  "\n" ++
  (match jAsObj (jGet tool "input") with
   | some input =>
     if toolName = "Edit" ∨ toolName = "MultiEdit" ∨ toolName = "Write" ∨
         toolName = "Read" then
       displayToolInputKeyParams cfg input toolName (indent ++ "  ")
     else if toolName = "Bash" then displayBashInput cfg input (indent ++ "  ")
     else if toolName = "Task" then displayTaskInput cfg input (indent ++ "  ")
     else if goStartsWith toolName "mcp__" then
       displayMCPToolInput cfg input toolName (indent ++ "  ")
     else if cfg.Verbose ∨ cfg.Compact then
       displayToolInput cfg input toolName (indent ++ "  ")
     else ""
   | none => "")

/-- Display tool result string content (display.go,
displayToolResultString); returns the output and whether anything was
shown. -/
def displayToolResultString (cfg : Config) (content indent : String) :
    String × Bool :=
  if content = "" then ("", false)
  else if cfg.Verbose then (displayText content indent, true)
  else (displayTextTruncated cfg content indent 10, true)

/-- Display tool result array content (display.go,
displayToolResultArray). -/
def displayToolResultArray (cfg : Config) (content : List JValue)
    (indent : String) : String × Bool :=
  content.foldl (fun acc item =>
    match jAsObj (some item) with
    | some m =>
      if jGet m "type" = some (.str "text") then
        match jAsString (jGet m "text") with
        | some text =>
          if text ≠ "" then
            (acc.1 ++ (if cfg.Verbose then displayText text indent
                       else displayTextTruncated cfg text indent 10), true)
          else acc
        | none => acc
      else acc
    | none => acc) ("", false)

/-- Get status icon and color (display.go, getTodoStatusIcon). -/
def getTodoStatusIcon (status : String) : String × String :=
  if status = "completed" then ("✓", colorGreen)
  else if status = "in_progress" then ("→", colorYellow)
  else if status = "pending" then ("□", colorGray)
  else ("•", colorGray)

/-- Display a single todo item (display.go, displayTodoItem). -/
def displayTodoItem (cfg : Config) (todo : JValue) (indent : String) : String :=
  let content := jGetStringD todo "content"
  let status := jGetStringD todo "status"
  let priority := jGetStringD todo "priority"
  let iconColor := getTodoStatusIcon status
  indent ++ color cfg iconColor.2 ++ iconColor.1 ++ colorReset ++ " " ++ content ++
  (if priority = "high" then " " ++ color cfg colorRed ++ "[HIGH]" ++ colorReset
   else if priority = "medium" then
     " " ++ color cfg colorYellow ++ "[MED]" ++ colorReset
   else "") ++ "\n"

/-- Display todo changes (display.go, displayTodoChanges). -/
def displayTodoChanges (cfg : Config) (newTodos oldTodos : List JValue)
    (indent : String) : String :=
  let oldMap := oldTodos.foldl (fun m oldItem =>
    match jAsObj (some oldItem) with
    | some old =>
      match jAsString (jGet old "id") with
      | some id =>
        match jAsString (jGet old "status") with
        | some status => goAssign m id status
        | none => m
      | none => m
    | none => m) ([] : List (String × String))
  indent ++ color cfg colorGray ++ "Changes:" ++ colorReset ++ "\n" ++
  String.join (newTodos.map fun newItem =>
    match jAsObj (some newItem) with
    | some newTodo =>
      match jAsString (jGet newTodo "id") with
      | some id =>
        match jAsString (jGet newTodo "status") with
        | some newStatus =>
          match goLookup oldMap id with
          | some oldStatus =>
            if oldStatus ≠ newStatus then
              indent ++ "  " ++ jGetStringD newTodo "content" ++ ": " ++
                oldStatus ++ " → " ++ newStatus ++ "\n"
            else ""
          | none => ""
        | none => ""
      | none => ""
    | none => "")

/-- Display TodoWrite result with structured data (display.go,
displayTodoWriteResultWithData). -/
def displayTodoWriteResultWithData (cfg : Config) (result : JValue)
    (indent : String) (toolUseResult : JValue) : String :=
  match jAsArr (jGet toolUseResult "newTodos") with
  | some newTodos =>
    String.join (newTodos.map fun todoItem =>
      match jAsObj (some todoItem) with
      | some todo => displayTodoItem cfg todo indent
      | none => "") ++
    (if cfg.Verbose then
      match jAsArr (jGet toolUseResult "oldTodos") with
      | some oldTodos => displayTodoChanges cfg newTodos oldTodos indent
      | none => ""
     else "")
  | none =>
    match jAsString (jGet result "content") with
    | some content =>
      if content ≠ "" ∧
          ¬goContains content "Todos have been modified successfully" then
        displayText content indent
      else ""
    | none => ""

/-- Display tool result content with full context (display.go,
displayToolResultFull). -/
def displayToolResultFull (cfg : Config) (result : JValue)
    (indent toolName : String) (toolUseResult toolInput : Option JValue) :
    String :=
  (if jAsBool (jGet result "is_error") = some true then
    indent ++ color cfg colorRed ++ "[ERROR]" ++ colorReset ++ "\n"
   else "") ++
  (match toolUseResult with
   | some tur =>
     if toolName = "TodoWrite" then displayTodoWriteResultWithData cfg result indent tur
     else displayToolResultContent cfg result indent
   | none => displayToolResultContent cfg result indent)
where
  displayToolResultContent (cfg : Config) (result : JValue) (indent : String) :
      String :=
    let rendered :=
      match jGet result "content" with
      | some (.str content) => displayToolResultString cfg content indent
      | some (.arr a) => displayToolResultArray cfg a.toList indent
      | _ => ("", false)
    if rendered.2 then rendered.1
    else rendered.1 ++ indent ++ color cfg colorGray ++ "(No content)" ++
      colorReset ++ "\n"

/-- Display message content with full context (display.go,
displayMessageContentFull). -/
def displayMessageContentFull (cfg : Config) (message : JValue)
    (indent toolName : String) (toolUseResult toolInput : Option JValue) :
    String :=
  String.join ((extractContent message).map fun item =>
    if jGet item "type" = some (.str "text") then
      match jAsString (jGet item "text") with
      | some text => displayText text indent
      | none => ""
    else if jGet item "type" = some (.str "tool_use") then
      displayToolUse cfg item indent
    else if jGet item "type" = some (.str "tool_result") then
      displayToolResultFull cfg item indent toolName toolUseResult toolInput
    else "")

/-- Display message content (display.go, displayMessageContent). -/
def displayMessageContent (cfg : Config) (message : JValue) (indent : String) :
    String :=
  displayMessageContentFull cfg message indent "" none none

/-- The first content object of type tool_result (the shared break-at-first
loop of display.go's displayToolResult). -/
def firstToolResultBlock : List JValue → Option JValue
  | [] => none
  | item :: rest =>
    match jAsObj (some item) with
    | some m =>
      if jGet m "type" = some (.str "tool_result") then some m
      else firstToolResultBlock rest
    | none => firstToolResultBlock rest

/-- Tool name displayed for a tool-result message: the first tool_result
block's tool_use_id looked up in the correlation table (display.go,
displayToolResult header loop; present keys count, even with empty
names). -/
def displayedToolName (contents : List JValue) (toolUseMap : ToolUseMap) :
    Option String :=
  match firstToolResultBlock contents with
  | some m =>
    match jAsString (jGet m "tool_use_id") with
    | some id => goLookup toolUseMap id
    | none => none
  | none => none

/-- Tool input resolved for a tool-result message (display.go,
displayToolResult input loop). -/
def displayedToolInput (contents : List JValue) (toolInputMap : ToolInputMap) :
    Option JValue :=
  match firstToolResultBlock contents with
  | some m =>
    match jAsString (jGet m "tool_use_id") with
    | some id => goLookup toolInputMap id
    | none => none
  | none => none

/-- Display tool result from user message (display.go, displayToolResult). -/
def displayToolResult (cfg : Config) (message : JValue)
    (timeStr versionStr : String) (toolUseMap : ToolUseMap)
    (toolInputMap : ToolInputMap) (toolUseResult : Option JValue) : String :=
  let contents := extractContent message
  let toolNameOpt := displayedToolName contents toolUseMap
  let toolName := toolNameOpt.getD ""
  let toolInput := displayedToolInput contents toolInputMap
  color cfg colorGray ++ "[" ++ timeStr ++ "]" ++ versionStr ++ " " ++
    color cfg (colorCyan ++ colorBold) ++ "TOOL" ++ colorReset ++
  (match toolNameOpt with
   | some name => " " ++ color cfg colorGray ++ "(" ++ name ++ ")" ++ colorReset
   | none => "") ++
  (if ¬cfg.Compact then
    "\n" ++ displayMessageContentFull cfg message "  " toolName toolUseResult
      toolInput ++ "\n"
   else
    match firstToolResultBlock contents with
    | some m =>
      if jAsBool (jGet m "is_error") = some true then " - [ERROR]\n"
      else " - [OK]\n"
    | none => "\n")

/-- Display user message (display.go, displayUserMessage). -/
def displayUserMessage (cfg : Config) (entry : JValue)
    (timeStr versionStr : String) (toolUseMap : ToolUseMap)
    (toolInputMap : ToolInputMap) : String :=
  match jAsObj (jGet entry "message") with
  | none => ""
  | some message =>
    let contents := extractContent message
    let isToolResult := contents.any fun content =>
      jGet content "type" = some (.str "tool_result")
    if isToolResult then
      let toolUseResult := jAsObj (jGet entry "toolUseResult")
      displayToolResult cfg message timeStr versionStr toolUseMap toolInputMap
        toolUseResult
    else
      color cfg colorGray ++ "[" ++ timeStr ++ "]" ++ versionStr ++ " " ++
        color cfg (colorBlue ++ colorBold) ++ "USER" ++ colorReset ++
      (if ¬cfg.Compact then
        "\n" ++ displayMessageContent cfg message "  " ++ "\n"
       else
        let summary := getMessageSummary message
        if summary ≠ "" then " - " ++ summary ++ "\n" else "\n")

/-- Helper function to get token count from usage data (part of the
pricing source file, getTokenCount). -/
def getTokenCount (usage : JValue) (key : String) : Option Int :=
  match jGet usage key with
  | some (.num n) => some n
  | _ => none

/-- Display assistant message (display.go, displayAssistantMessage). -/
def displayAssistantMessage (ext : ExtEnv) (cfg : Config) (entry : JValue)
    (timeStr versionStr : String) : String :=
  match jAsObj (jGet entry "message") with
  | none => ""
  | some message =>
    color cfg colorGray ++ "[" ++ timeStr ++ "]" ++ versionStr ++ " " ++
      color cfg (colorGreen ++ colorBold) ++ "ASSISTANT" ++ colorReset ++
    (match jAsString (jGet message "model") with
     | some model => " " ++ color cfg colorGray ++ "(" ++ model ++ ")" ++ colorReset
     | none => "") ++
    (match jAsObj (jGet message "usage") with
     | some usage =>
       match getTokenCount usage "input_tokens", getTokenCount usage "output_tokens" with
       | some inputTokens, some outputTokens =>
         " [↑" ++ toString inputTokens ++ " ↓" ++ toString outputTokens ++
         (match getTokenCount usage "cache_read_input_tokens" with
          | some cacheRead => if cacheRead > 0 then " *" ++ toString cacheRead else ""
          | none => "") ++
         (match getTokenCount usage "cache_creation_input_tokens" with
          | some cacheCreate =>
            if cacheCreate > 0 then " +" ++ toString cacheCreate else ""
          | none => "") ++
         (if cfg.ShowCost then
           let modelName := (jAsString (jGet message "model")).getD ""
           match ext.costStr usage modelName with
           | some costFigure => " $" ++ costFigure
           | none => ""
          else "") ++ "]"
       | _, _ => ""
     | none => "") ++
    (if ¬cfg.Compact then
      "\n" ++ displayMessageContent cfg message "  " ++ "\n"
     else
      let summary := getMessageSummary message
      if summary ≠ "" then " - " ++ summary ++ "\n" else "\n")

/-- Format version info for display (display.go, formatVersionInfo). -/
def formatVersionInfo (cfg : Config) (version : String) : String :=
  if version = "" ∨ cfg.Compact then ""
  else " " ++ color cfg colorGray ++ "v" ++ version ++ colorReset

/-- Display entry as JSON (json_output.go, displayEntryAsJSON): the
original decoded record is re-serialized without modification, one line. -/
def displayEntryAsJSON (entry : JValue) (toolUseMap : ToolUseMap) : String :=
  jsonMarshal entry ++ "\n"

/-- Display entry with tool information (display.go,
displayEntryWithToolInfo): filter, then JSON passthrough or text dispatch
by type (only "user" and "assistant" render; the timestamp is formatted —
and the timing cursor updated — before the dispatch). -/
def displayEntryWithToolInfo (ext : ExtEnv) (cfg : Config) (entry : JValue)
    (toolUseMap : ToolUseMap) (toolInputMap : ToolInputMap) (st : DState) :
    String × DState :=
  let msgType := jGetStringD entry "type"
  let timestamp := jGetStringD entry "timestamp"
  let version := jGetStringD entry "version"
  if ¬shouldDisplayEntryWithToolInfo cfg msgType entry toolUseMap then ("", st)
  else if cfg.OutputFormat = "json" then (displayEntryAsJSON entry toolUseMap, st)
  else
    let fmtRes := formatTimestamp ext cfg timestamp st
    let timeStr := fmtRes.1
    let versionStr := formatVersionInfo cfg version
    if msgType = "user" then
      (displayUserMessage cfg entry timeStr versionStr toolUseMap toolInputMap,
        fmtRes.2)
    else if msgType = "assistant" then
      (displayAssistantMessage ext cfg entry timeStr versionStr, fmtRes.2)
    else ("", fmtRes.2)

/-!
main.go — correlation collection and the three processing modes.  A
processing state carries the output accumulated so far (everything written
to stdout) and the display state.
-/

/-- Per-item body of collectToolUseInfo's loop (main.go): a content item
that is an object of type tool_use with a string id contributes its name
(when it is a string) to toolUseMap and its input (when it is an object)
to toolInputMap. -/
def collectToolUseItem (maps : ToolUseMap × ToolInputMap) (item : JValue) :
    ToolUseMap × ToolInputMap :=
  match jAsObj (some item) with
  | some m =>
    if jGet m "type" = some (.str "tool_use") then
      match jAsString (jGet m "id") with
      | some toolID =>
        let names :=
          match jAsString (jGet m "name") with
          | some toolName => goAssign maps.1 toolID toolName
          | none => maps.1
        let inputs :=
          match jAsObj (jGet m "input") with
          | some input => goAssign maps.2 toolID input
          | none => maps.2
        (names, inputs)
      | none => maps
    else maps
  | none => maps

/-- Collect tool use information from assistant messages (main.go,
collectToolUseInfo). -/
def collectToolUseInfo (entry : JValue) (maps : ToolUseMap × ToolInputMap) :
    ToolUseMap × ToolInputMap :=
  match jAsObj (jGet entry "message") with
  | some message =>
    match jAsArr (jGet message "content") with
    | some content => content.foldl collectToolUseItem maps
    | none => maps
  | none => maps

/-- The guarded observation every processing loop performs (main.go): only
records whose type field is the string "assistant" feed the correlation
table. -/
def observeEntry (maps : ToolUseMap × ToolInputMap) (entry : JValue) :
    ToolUseMap × ToolInputMap :=
  if jGetStringD entry "type" = "assistant" then collectToolUseInfo entry maps
  else maps

/-- Decoded records of the input lines, in order; lines that fail JSON
decoding are silently skipped (main.go scan loops). -/
def decodeLines (lines : List String) : List JValue :=
  lines.filterMap parseLine

/-- Correlation maps after scanning all lines (the first pass of
processBuffered and the discovery pass of processFollowMode). -/
def buildToolMaps (lines : List String) : ToolUseMap × ToolInputMap :=
  (decodeLines lines).foldl observeEntry ([], [])

/-- Process streaming input (main.go, processStreaming): decode, observe,
display immediately, line by line. -/
def processStreaming (ext : ExtEnv) (cfg : Config) (lines : List String)
    (st : DState) : String × DState × (ToolUseMap × ToolInputMap) :=
  lines.foldl (fun acc line =>
    match parseLine line with
    | none => acc
    | some entry =>
      let maps := observeEntry acc.2.2 entry
      let res := displayEntryWithToolInfo ext cfg entry maps.1 maps.2 acc.2.1
      (acc.1 ++ res.1, res.2, maps)) ("", st, ([], []))

/-- Process buffered input (main.go, processBuffered): pass 1 decodes all
lines and builds the correlation maps; pass 2 renders every decoded entry
against the completed maps. -/
def processBuffered (ext : ExtEnv) (cfg : Config) (lines : List String)
    (st : DState) : String × DState :=
  let entries := decodeLines lines
  let maps := entries.foldl observeEntry ([], [])
  entries.foldl (fun acc entry =>
    let res := displayEntryWithToolInfo ext cfg entry maps.1 maps.2 acc.2
    (acc.1 ++ res.1, res.2)) ("", st)

/-- The history phase of follow mode (main.go, processFollowMode before
the poll loop): a discovery pass over the whole current content populates
follow mode's own correlation maps without rendering, then processBuffered
runs on the same content (with fresh maps of its own) and renders it.  The
discovery maps are returned for the tail-polling loop, which is outside
this model (it never terminates and is driven by timers and file growth). -/
def processFollowHistory (ext : ExtEnv) (cfg : Config) (lines : List String)
    (st : DState) : (String × DState) × (ToolUseMap × ToolInputMap) :=
  let followMaps := buildToolMaps lines
  (processBuffered ext cfg lines st, followMaps)

/-- One iteration of follow mode's tail loop for a batch of new complete
lines (main.go, processFollowMode poll loop body): each new line is
decoded, observed into the persistent follow maps, and displayed
immediately. -/
def processFollowNewLines (ext : ExtEnv) (cfg : Config) (lines : List String)
    (maps : ToolUseMap × ToolInputMap) (st : DState) :
    String × DState × (ToolUseMap × ToolInputMap) :=
  lines.foldl (fun acc line =>
    match parseLine line with
    | none => acc
    | some entry =>
      let maps := observeEntry acc.2.2 entry
      let res := displayEntryWithToolInfo ext cfg entry maps.1 maps.2 acc.2.1
      (acc.1 ++ res.1, res.2, maps)) ("", st, maps)

/-!
Glob semantics: the recursive matcher agrees with the declarative
semantics GlobSem.
-/

theorem globSem_nil_iff (t : List Nat) : GlobSem [] t ↔ t = [] := by
  constructor
  · intro h
    cases h
    rfl
  · rintro rfl
    exact .nil

theorem globSem_star_iff (p t : List Nat) :
    GlobSem (42 :: p) t ↔ ∃ k, k ≤ t.length ∧ GlobSem p (t.drop k) := by
  constructor
  · intro h
    cases h with
    | star p s1 s2 h2 =>
      refine ⟨s1.length, by simp, ?_⟩
      simpa [List.drop_left] using h2
    | cons c a p s hc hca h => exact absurd rfl hc
  · rintro ⟨k, hk, h⟩
    have := GlobSem.star p (t.take k) (t.drop k) h
    simpa [List.take_append_drop] using this

theorem globSem_cons_iff (c : Nat) (p t : List Nat) (hc : c ≠ 42) :
    GlobSem (c :: p) t ↔
      ∃ a t', t = a :: t' ∧ (c = 63 ∨ c = a) ∧ GlobSem p t' := by
  constructor
  · intro h
    cases h with
    | star p s1 s2 h2 => exact absurd rfl hc
    | cons c a p s hc' hca h => exact ⟨a, s, rfl, hca, h⟩
  · rintro ⟨a, t', rfl, hca, h⟩
    exact .cons c a p t' hc hca h

theorem matchGlobAux_iff (fuel : Nat) (p s : List Nat) :
    ∀ pIdx sIdx, fuel = p.length - pIdx → pIdx ≤ p.length → sIdx ≤ s.length →
      (matchGlobAux fuel p s pIdx sIdx = true ↔
        GlobSem (p.drop pIdx) (s.drop sIdx)) := by
  induction fuel with
  | zero =>
    intro pIdx sIdx hfuel hp hs
    have hpe : pIdx = p.length := by omega
    subst hpe
    simp only [matchGlobAux, List.drop_length, globSem_nil_iff,
      List.drop_eq_nil_iff, decide_eq_true_eq]
    omega
  | succ fuel ih =>
    intro pIdx sIdx hfuel hp hs
    have hplt : pIdx < p.length := by omega
    have hdropp : p.drop pIdx = p.getD pIdx 0 :: p.drop (pIdx + 1) := by
      rw [List.getD_eq_getElem _ _ hplt]
      exact List.drop_eq_getElem_cons hplt
    rw [matchGlobAux]
    by_cases hstar : p.getD pIdx 0 = 42
    · rw [if_pos hstar, hdropp, hstar]
      rw [globSem_star_iff]
      constructor
      · intro h
        obtain ⟨k, hk, hmm⟩ := by simpa [List.any_eq_true, List.mem_range] using h
        refine ⟨k, by have hld := List.length_drop sIdx s; omega, ?_⟩
        rw [List.drop_drop]
        have := (ih (pIdx + 1) (sIdx + k) (by omega) (by omega) (by omega)).1 hmm
        simpa [Nat.add_comm] using this
      · rintro ⟨k, hk, hsem⟩
        simp only [List.length_drop] at hk
        simp only [List.any_eq_true, List.mem_range]
        refine ⟨k, by omega, ?_⟩
        apply (ih (pIdx + 1) (sIdx + k) (by omega) (by omega) (by omega)).2
        rw [List.drop_drop] at hsem
        simpa [Nat.add_comm] using hsem
    · rw [if_neg hstar]
      by_cases hse : sIdx = s.length
      · rw [if_pos hse, hdropp]
        have hnil : s.drop sIdx = [] := by
          subst hse
          exact List.drop_length s
        rw [hnil, globSem_cons_iff _ _ _ hstar]
        simp
      · rw [if_neg hse]
        have hslt : sIdx < s.length := by omega
        have hdrops : s.drop sIdx = s.getD sIdx 0 :: s.drop (sIdx + 1) := by
          rw [List.getD_eq_getElem _ _ hslt]
          exact List.drop_eq_getElem_cons hslt
        rw [hdropp, hdrops, globSem_cons_iff _ _ _ hstar]
        by_cases hq : p.getD pIdx 0 = 63 ∨ p.getD pIdx 0 = s.getD sIdx 0
        · rw [if_pos hq]
          rw [ih (pIdx + 1) (sIdx + 1) (by omega) (by omega) (by omega)]
          constructor
          · intro h
            exact ⟨s.getD sIdx 0, s.drop (sIdx + 1), rfl, hq, h⟩
          · rintro ⟨a, t', het, hca, h⟩
            obtain ⟨rfl, rfl⟩ : s.getD sIdx 0 = a ∧ s.drop (sIdx + 1) = t' := by
              constructor <;> [exact (List.cons.injEq _ _ _ _ ▸ het).1;
                exact (List.cons.injEq _ _ _ _ ▸ het).2]
            exact h
        · rw [if_neg hq]
          simp only [Bool.false_eq_true, false_iff]
          rintro ⟨a, t', het, hca, h⟩
          obtain ⟨rfl, rfl⟩ : s.getD sIdx 0 = a ∧ s.drop (sIdx + 1) = t' := by
            constructor <;> [exact (List.cons.injEq _ _ _ _ ▸ het).1;
              exact (List.cons.injEq _ _ _ _ ▸ het).2]
          exact hq hca

theorem matchGlobPattern_iff_globSem (pattern str : String) :
    matchGlobPattern pattern str = true ↔
      GlobSem (strBytes pattern) (strBytes str) := by
  have := matchGlobAux_iff ((strBytes pattern).length - 0) (strBytes pattern)
    (strBytes str) 0 0 rfl (by omega) (by omega)
  simpa [matchGlobPattern, matchGlobRecursive] using this

theorem utf8Bytes_ne_nil (c : Char) : utf8Bytes c ≠ [] := by
  simp only [utf8Bytes]
  split_ifs <;> simp

theorem strBytes_ne_nil {s : String} (hs : s ≠ "") : strBytes s ≠ [] := by
  have hd : s.data ≠ [] := by
    intro h
    apply hs
    cases s
    simp_all
  cases hdd : s.data with
  | nil => exact absurd hdd hd
  | cons c t =>
    simp only [strBytes, hdd, List.foldr_cons]
    intro h
    exact utf8Bytes_ne_nil c (List.append_eq_nil.mp h).1

/-- C5 counterexample: the Go matcher indexes strings by byte, so '?'
consumes one UTF-8 byte, not one character: the one-character string "é"
(two bytes) is not matched by "?" but is matched by "??", and "test?"
does not match "testé" — refuting '? matches exactly one character' as a
statement about characters. -/
theorem C5_counterexample :
    ("é" : String).length = 1 ∧
    matchGlobPattern "?" "é" = false ∧
    matchGlobPattern "??" "é" = true ∧
    matchGlobPattern "test?" "testé" = false := by decide

/-- C5 (amended): the glob matcher works on the UTF-8 bytes of its
arguments: for all pattern and subject strings it is anchored and
case-sensitive with '*' matching zero or more bytes and '?' matching
exactly one byte (the byte-level GlobSem equivalence) — so '?' matches
exactly one character only when that character is a single byte; the
empty pattern never matches a non-empty string; pattern "*" matches the
empty string; and the nine concrete ASCII cases from the spec hold. -/
theorem C5_amended :
    (∀ pattern str : String,
      matchGlobPattern pattern str = true ↔
        GlobSem (strBytes pattern) (strBytes str)) ∧
    (∀ s : String, s ≠ "" → matchGlobPattern "" s = false) ∧
    matchGlobPattern "*" "" = true ∧
    matchGlobPattern "Bash" "Bash" = true ∧
    matchGlobPattern "*Edit" "MultiEdit" = true ∧
    matchGlobPattern "*Edit" "Editor" = false ∧
    matchGlobPattern "Todo*" "TodoWrite" = true ∧
    matchGlobPattern "Todo*" "MyTodo" = false ∧
    matchGlobPattern "*" "anything" = true ∧
    matchGlobPattern "" "something" = false ∧
    matchGlobPattern "test?" "test1" = true ∧
    matchGlobPattern "test?" "test12" = false := by
  refine ⟨matchGlobPattern_iff_globSem, ?_, by decide, by decide, by decide,
    by decide, by decide, by decide, by decide, by decide, by decide, by decide⟩
  intro s hs
  have hd := strBytes_ne_nil hs
  have hlen : (strBytes s).length ≠ 0 := fun h => hd (List.length_eq_zero.mp h)
  simp only [matchGlobPattern, matchGlobRecursive]
  rw [show (strBytes "").length - 0 = 0 from rfl, matchGlobAux]
  simp only [decide_eq_false_iff_not]
  omega

theorem C5_amended_witness : matchGlobPattern "" "something" = false :=
  C5_amended.2.1 "something" (by decide)

/-- C1: for a static input, follow mode's history phase — a discovery pass
that only populates its correlation maps, then buffered-mode processing of
the same content — produces byte-identical output (and the same final
display state) as buffered mode alone; the discovery maps equal the maps
the buffered pass builds. -/
theorem C1_follow_history_matches_buffered (ext : ExtEnv) (cfg : Config)
    (lines : List String) (st : DState) :
    (processFollowHistory ext cfg lines st).1 = processBuffered ext cfg lines st ∧
    (processFollowHistory ext cfg lines st).2 = buildToolMaps lines :=
  ⟨rfl, rfl⟩

def plainUserEntry : JValue :=
  .obj (.cons "message" (.obj (.cons "content" (.str "hello") .nil))
    (.cons "type" (.str "user") .nil))

/-- C3 counterexample: with roleAllow = {"user"} and toolInclude = {"Bash"}
(tool-filtering mode), a plain user-text record is ACCEPTED by the filter,
while the claim says it must be rejected. -/
theorem C3_counterexample :
    shouldDisplayEntryWithToolInfo { Role := "user", ToolFilter := "Bash" }
      "user" plainUserEntry [] = true := by decide

/-- C3 (amended): in tool-filtering mode, records whose type is none of
"user", "assistant", "tool" are rejected; but a plain "user" record (no
tool_result block in its content) is delegated to role-based user
handling: it is accepted iff the role list is empty or contains "user". -/
theorem C3_amended (cfg : Config) (msgType : String) (entry : JValue)
    (names : ToolUseMap)
    (hTF : parseCommaSeparated cfg.ToolFilter ≠ [] ∨
      parseCommaSeparated cfg.ToolExclude ≠ []) :
    (msgType ≠ "user" → msgType ≠ "assistant" → msgType ≠ "tool" →
      shouldDisplayEntryWithToolInfo cfg msgType entry names = false) ∧
    (msgType = "user" → hasToolResult entry = false →
      (shouldDisplayEntryWithToolInfo cfg msgType entry names = true ↔
        parseCommaSeparated cfg.Role = [] ∨
          "user" ∈ parseCommaSeparated cfg.Role)) := by
  constructor
  · intro h1 h2 h3
    simp only [shouldDisplayEntryWithToolInfo]
    rw [if_pos hTF, if_neg h1, if_neg h2, if_neg h3]
  · rintro rfl htr
    simp only [shouldDisplayEntryWithToolInfo]
    rw [if_pos hTF]
    simp only [if_true]
    simp only [shouldDisplayUserWithToolResult, htr]
    by_cases hr : parseCommaSeparated cfg.Role = []
    · simp [hr]
    · rw [if_neg hr]
      simp only [Bool.false_eq_true, if_false]
      constructor
      · intro h
        right
        by_cases hu : (parseCommaSeparated cfg.Role).any fun role => role = "user"
        · simpa [List.any_eq_true] using hu
        · simp [hu] at h
      · rintro (h | h)
        · exact absurd h hr
        · have hu : (parseCommaSeparated cfg.Role).any (fun role => role = "user") = true := by
            simp [List.any_eq_true]
            exact h
          simp [hu]

def toolResultBlock : JValue :=
  .obj (.cons "content" (.str "file.txt") (.cons "tool_use_id" (.str "t1")
    (.cons "type" (.str "tool_result") .nil)))

def userToolResultMessage : JValue :=
  .obj (.cons "content" (.arr (.cons toolResultBlock .nil)) .nil)

def userToolResultEntry : JValue :=
  .obj (.cons "message" userToolResultMessage (.cons "type" (.str "user") .nil))

/-- C3 (amended) witness at a concrete input. -/
theorem C3_amended_witness :
    shouldDisplayEntryWithToolInfo { Role := "assistant", ToolFilter := "Bash" }
      "summary" plainUserEntry [] = false :=
  (C3_amended { Role := "assistant", ToolFilter := "Bash" } "summary"
    plainUserEntry [] (by decide)).1 (by decide) (by decide) (by decide)

/-- C4 counterexample: in tool-filtering mode (toolInclude = {"Bash"}) with
an empty role filter, a user tool-result record whose correlation id
resolves to tool name "Edit" is ACCEPTED even though "Edit" fails the
include predicate, while the claim says acceptance must follow the
predicate. -/
theorem C4_counterexample :
    shouldDisplayEntryWithToolInfo { ToolFilter := "Bash" } "user"
      userToolResultEntry [("t1", "Edit")] = true ∧
    applyToolFilters "Edit" ["Bash"] [] = false := by decide

/-- C4 (amended): in tool-filtering mode a "user" record carrying a
tool_result block is accepted iff the role list is empty (accepted
unconditionally), or it contains "tool" and the resolve rule holds: a
resolved name must pass the include/exclude predicate and an unresolved
one is accepted iff the include list is empty; a non-empty role list
without "tool" rejects the record. -/
theorem C4_amended (cfg : Config) (entry message : JValue)
    (content : List JValue) (names : ToolUseMap)
    (hTF : parseCommaSeparated cfg.ToolFilter ≠ [] ∨
      parseCommaSeparated cfg.ToolExclude ≠ [])
    (hm : jAsObj (jGet entry "message") = some message)
    (hc : jAsArr (jGet message "content") = some content)
    (htr : hasToolResult entry = true) :
    shouldDisplayEntryWithToolInfo cfg "user" entry names = true ↔
      (parseCommaSeparated cfg.Role = [] ∨
        ("tool" ∈ parseCommaSeparated cfg.Role ∧
          (if resolveUserToolName content names = "" then
            parseCommaSeparated cfg.ToolFilter = []
           else
            applyToolFilters (resolveUserToolName content names)
              (parseCommaSeparated cfg.ToolFilter)
              (parseCommaSeparated cfg.ToolExclude) = true))) := by
  simp only [shouldDisplayEntryWithToolInfo]
  rw [if_pos hTF]
  simp only [if_true]
  simp only [shouldDisplayUserWithToolResult, htr]
  by_cases hr : parseCommaSeparated cfg.Role = []
  · simp [hr]
  · rw [if_neg hr]
    simp only [if_true]
    by_cases ht : (parseCommaSeparated cfg.Role).any fun role => role = "tool"
    · have htm : "tool" ∈ parseCommaSeparated cfg.Role := by
        simpa [List.any_eq_true] using ht
      rw [if_pos ht]
      simp only [shouldDisplayToolResultInUser, hm, hc]
      by_cases hn : resolveUserToolName content names = ""
      · rw [if_pos hn]
        by_cases hf : parseCommaSeparated cfg.ToolFilter = []
        · simp [hf, hr, htm, hn]
        · simp [hf, hr, htm, hn]
      · rw [if_neg hn]
        simp [hr, htm, hn]
    · rw [if_neg ht]
      have htm : "tool" ∉ parseCommaSeparated cfg.Role := by
        intro hmem
        apply ht
        simp [List.any_eq_true]
        exact hmem
      simp [hr, htm]

/-- C4 (amended) witness at a concrete input. -/
theorem C4_amended_witness :
    shouldDisplayEntryWithToolInfo { Role := "tool", ToolFilter := "Bash" }
      "user" userToolResultEntry [("t1", "Bash")] = true :=
  (C4_amended { Role := "tool", ToolFilter := "Bash" } userToolResultEntry
    userToolResultMessage [toolResultBlock] [("t1", "Bash")] (by decide)
    (by decide) (by decide) (by decide)).mpr (by decide)

def toolUseNoNameBlock : JValue :=
  .obj (.cons "id" (.str "t9") (.cons "input" (.obj .nil)
    (.cons "type" (.str "tool_use") .nil)))

def assistantNoNameEntry : JValue :=
  .obj (.cons "message"
    (.obj (.cons "content" (.arr (.cons toolUseNoNameBlock .nil)) .nil))
    (.cons "type" (.str "assistant") .nil))

/-- C8 counterexample: observing an assistant record whose only tool_use
block has an id and an input but NO name writes idToInput[t9] anyway (and
nothing to idToName), while the claim allows an idToInput write only for
blocks carrying both an id and a name. -/
theorem C8_counterexample :
    (observeEntry ([], []) assistantNoNameEntry).2 = [("t9", JValue.obj .nil)] ∧
    (observeEntry ([], []) assistantNoNameEntry).1 = [] := by decide

def mkContentEntry (type_ : String) (content : JValue) : JValue :=
  .obj (.cons "message" (.obj (.cons "content" content .nil))
    (.cons "type" (.str type_) .nil))

def toolUseBlockFull (id name : String) (input : JObj) : JValue :=
  .obj (.cons "id" (.str id) (.cons "input" (.obj input)
    (.cons "name" (.str name) (.cons "type" (.str "tool_use") .nil))))

def toolUseBlockNoInput (id name : String) : JValue :=
  .obj (.cons "id" (.str id) (.cons "name" (.str name)
    (.cons "type" (.str "tool_use") .nil)))

def toolUseBlockNoName (id : String) (input : JObj) : JValue :=
  .obj (.cons "id" (.str id) (.cons "input" (.obj input)
    (.cons "type" (.str "tool_use") .nil)))

def toolUseBlockNoId (name : String) (input : JObj) : JValue :=
  .obj (.cons "input" (.obj input) (.cons "name" (.str name)
    (.cons "type" (.str "tool_use") .nil)))

/-- C8 (amended): the observe operation writes only from records whose
type is "assistant"; per tool_use block with a string id, a string name is
recorded in idToName and an object input is recorded in idToInput — each
independently of the other — while blocks without an id, non-tool_use
blocks, and non-assistant records write nothing. -/
theorem C8_amended_observe (m : ToolUseMap × ToolInputMap) :
    (∀ entry : JValue, jGetStringD entry "type" ≠ "assistant" →
      observeEntry m entry = m) ∧
    (∀ id name input,
      observeEntry m (mkContentEntry "assistant"
          (.arr (.cons (toolUseBlockFull id name input) .nil))) =
        (goAssign m.1 id name, goAssign m.2 id (.obj input))) ∧
    (∀ id name,
      observeEntry m (mkContentEntry "assistant"
          (.arr (.cons (toolUseBlockNoInput id name) .nil))) =
        (goAssign m.1 id name, m.2)) ∧
    (∀ id input,
      observeEntry m (mkContentEntry "assistant"
          (.arr (.cons (toolUseBlockNoName id input) .nil))) =
        (m.1, goAssign m.2 id (.obj input))) ∧
    (∀ name input,
      observeEntry m (mkContentEntry "assistant"
          (.arr (.cons (toolUseBlockNoId name input) .nil))) = m) ∧
    (∀ s : String,
      observeEntry m (mkContentEntry "assistant"
          (.arr (.cons (.str s) .nil))) = m) ∧
    (∀ items1 items2 : List JValue,
      (items1 ++ items2).foldl collectToolUseItem m =
        items2.foldl collectToolUseItem (items1.foldl collectToolUseItem m)) := by
  refine ⟨?_, ?_, ?_, ?_, ?_, ?_, ?_⟩
  · intro entry h
    simp only [observeEntry, if_neg h]
  · intro id name input
    rfl
  · intro id name
    rfl
  · intro id input
    rfl
  · intro name input
    rfl
  · intro s
    rfl
  · intro items1 items2
    exact List.foldl_append _ _ _ _

/-- C8 (amended) witness at a concrete input. -/
theorem C8_amended_observe_witness :
    observeEntry ([], []) (mkContentEntry "assistant"
        (.arr (.cons (toolUseBlockFull "t1" "Bash" .nil) .nil))) =
      ([("t1", "Bash")], [("t1", JValue.obj .nil)]) ∧
    observeEntry ([("a", "B")], []) (mkContentEntry "user"
        (.arr (.cons (toolUseBlockFull "t1" "Bash" .nil) .nil))) =
      ([("a", "B")], []) :=
  ⟨(C8_amended_observe ([], [])).2.1 "t1" "Bash" .nil,
   (C8_amended_observe ([("a", "B")], [])).1 _ (by decide)⟩

def extConstTime : ExtEnv :=
  { parseTime := fun _ => some 42
    fmtHMS := fun t => toString t
    costStr := fun _ _ => none }

def extNoTime : ExtEnv :=
  { parseTime := fun _ => none
    fmtHMS := fun _ => ""
    costStr := fun _ _ => none }

/-- C7 counterexample: in json display mode with timing enabled, a
filter-accepted record whose timestamp parses leaves the previous-timestamp
cursor untouched (the json branch returns before formatTimestamp runs),
while the claim asserts the cursor is mutated on every rendered record
regardless of display mode. -/
theorem C7_counterexample :
    shouldDisplayEntryWithToolInfo { OutputFormat := "json", ShowTiming := true }
      "user" plainUserEntry [] = true ∧
    extConstTime.parseTime (jGetStringD plainUserEntry "timestamp") = some 42 ∧
    (displayEntryWithToolInfo extConstTime
        { OutputFormat := "json", ShowTiming := true } plainUserEntry [] []
        { lastTimestamp := some 5 }).2 = { lastTimestamp := some 5 } ∧
    (5 : Int) ≠ 42 := by decide

/-- C7 (amended): the previous-timestamp cursor is never touched by a
filtered-out record (which also renders nothing) nor by json-mode
rendering; in the text modes an accepted record sets the cursor to its
parsed timestamp and leaves it unchanged when the timestamp fails to
parse; and with timing enabled the annotation appended to the rendered
time is the formatted gap between the record's timestamp and the cursor's
previous value (the previously rendered record's timestamp). -/
theorem C7_amended_cursor (ext : ExtEnv) (cfg : Config) (entry : JValue)
    (names : ToolUseMap) (inputs : ToolInputMap) (st : DState) :
    (shouldDisplayEntryWithToolInfo cfg (jGetStringD entry "type") entry names =
        false →
      displayEntryWithToolInfo ext cfg entry names inputs st = ("", st)) ∧
    (shouldDisplayEntryWithToolInfo cfg (jGetStringD entry "type") entry names =
        true →
      cfg.OutputFormat = "json" →
      (displayEntryWithToolInfo ext cfg entry names inputs st).2 = st) ∧
    (∀ t, shouldDisplayEntryWithToolInfo cfg (jGetStringD entry "type") entry
        names = true →
      cfg.OutputFormat ≠ "json" →
      ext.parseTime (jGetStringD entry "timestamp") = some t →
      (displayEntryWithToolInfo ext cfg entry names inputs st).2 =
        { lastTimestamp := some t }) ∧
    (shouldDisplayEntryWithToolInfo cfg (jGetStringD entry "type") entry names =
        true →
      cfg.OutputFormat ≠ "json" →
      ext.parseTime (jGetStringD entry "timestamp") = none →
      (displayEntryWithToolInfo ext cfg entry names inputs st).2 = st) ∧
    (∀ t t0, cfg.ShowTiming = true →
      ext.parseTime (jGetStringD entry "timestamp") = some t →
      st.lastTimestamp = some t0 →
      formatTimestamp ext cfg (jGetStringD entry "timestamp") st =
        (ext.fmtHMS t ++ " " ++ fmtElapsed (t - t0),
          { lastTimestamp := some t })) := by
  have hstate : ∀ ts, (formatTimestamp ext cfg ts st).2 =
      match ext.parseTime ts with
      | none => st
      | some t => { lastTimestamp := some t } := by
    intro ts
    simp only [formatTimestamp]
    cases ext.parseTime ts with
    | none => rfl
    | some t =>
      by_cases hst : cfg.ShowTiming
      · simp only [if_pos hst]
        cases st.lastTimestamp <;> rfl
      · simp only [if_neg hst]
  have hdisp : ∀ (h : shouldDisplayEntryWithToolInfo cfg
      (jGetStringD entry "type") entry names = true),
      cfg.OutputFormat ≠ "json" →
      (displayEntryWithToolInfo ext cfg entry names inputs st).2 =
        (formatTimestamp ext cfg (jGetStringD entry "timestamp") st).2 := by
    intro h hj
    simp only [displayEntryWithToolInfo]
    rw [if_neg (not_not_intro h), if_neg hj]
    split
    · rfl
    · split <;> rfl
  refine ⟨?_, ?_, ?_, ?_, ?_⟩
  · intro h
    simp only [displayEntryWithToolInfo]
    rw [if_pos (by simp [h])]
  · intro h hj
    simp only [displayEntryWithToolInfo]
    rw [if_neg (not_not_intro h), if_pos hj]
  · intro t h hj hp
    rw [hdisp h hj, hstate, hp]
  · intro h hj hp
    rw [hdisp h hj, hstate, hp]
  · intro t t0 hst hp h0
    simp only [formatTimestamp, hp, if_pos hst, h0]

/-- C7 (amended) witness at a concrete input. -/
theorem C7_amended_cursor_witness :
    (displayEntryWithToolInfo extConstTime { ShowTiming := true }
        plainUserEntry [] [] { lastTimestamp := some 5 }).2 =
      { lastTimestamp := some 42 } :=
  (C7_amended_cursor extConstTime { ShowTiming := true } plainUserEntry [] []
    { lastTimestamp := some 5 }).2.2.1 42 (by decide) (by decide) (by decide)

def summaryEntry : JValue := .obj (.cons "type" (.str "summary") .nil)

/-- C10 counterexample: a filter-accepted record of type "summary" with no
timestamp field produces no text output — but it also leaves the
previous-timestamp cursor untouched (nothing parses), while the claim says
such a record still advances the cursor before the type dispatch. -/
theorem C10_counterexample :
    shouldDisplayEntryWithToolInfo {} "summary" summaryEntry [] = true ∧
    displayEntryWithToolInfo extNoTime {} summaryEntry [] []
        { lastTimestamp := some 5 } = ("", { lastTimestamp := some 5 }) := by
  decide

/-- C10 (amended): a filter-accepted record whose type is neither "user"
nor "assistant" renders no text output in the text modes; before the type
dispatch the cursor is set to the record's parsed timestamp when it
parses, and left unchanged when it does not; in json mode the record is
emitted as the re-serialized original. -/
theorem C10_amended_unknown_type (ext : ExtEnv) (cfg : Config) (entry : JValue)
    (names : ToolUseMap) (inputs : ToolInputMap) (st : DState)
    (hacc : shouldDisplayEntryWithToolInfo cfg (jGetStringD entry "type") entry
      names = true)
    (h1 : jGetStringD entry "type" ≠ "user")
    (h2 : jGetStringD entry "type" ≠ "assistant") :
    (cfg.OutputFormat ≠ "json" →
      (displayEntryWithToolInfo ext cfg entry names inputs st).1 = "" ∧
      (∀ t, ext.parseTime (jGetStringD entry "timestamp") = some t →
        (displayEntryWithToolInfo ext cfg entry names inputs st).2 =
          { lastTimestamp := some t }) ∧
      (ext.parseTime (jGetStringD entry "timestamp") = none →
        (displayEntryWithToolInfo ext cfg entry names inputs st).2 = st)) ∧
    (cfg.OutputFormat = "json" →
      displayEntryWithToolInfo ext cfg entry names inputs st =
        (jsonMarshal entry ++ "\n", st)) := by
  have hstate : (formatTimestamp ext cfg (jGetStringD entry "timestamp") st).2 =
      match ext.parseTime (jGetStringD entry "timestamp") with
      | none => st
      | some t => { lastTimestamp := some t } := by
    simp only [formatTimestamp]
    cases ext.parseTime (jGetStringD entry "timestamp") with
    | none => rfl
    | some t =>
      by_cases hst : cfg.ShowTiming
      · simp only [if_pos hst]
        cases st.lastTimestamp <;> rfl
      · simp only [if_neg hst]
  constructor
  · intro hj
    have hshape : displayEntryWithToolInfo ext cfg entry names inputs st =
        ("", (formatTimestamp ext cfg (jGetStringD entry "timestamp") st).2) := by
      simp only [displayEntryWithToolInfo]
      rw [if_neg (not_not_intro hacc), if_neg hj, if_neg h1, if_neg h2]
    refine ⟨by rw [hshape], ?_, ?_⟩
    · intro t hp
      rw [hshape, hstate, hp]
    · intro hp
      rw [hshape, hstate, hp]
  · intro hj
    simp only [displayEntryWithToolInfo]
    rw [if_neg (not_not_intro hacc), if_pos hj]
    rfl

/-- C10 (amended) witness at a concrete input. -/
theorem C10_amended_unknown_type_witness :
    (displayEntryWithToolInfo extConstTime {} summaryEntry [] []
        { lastTimestamp := some 5 }).1 = "" :=
  ((C10_amended_unknown_type extConstTime {} summaryEntry [] []
      { lastTimestamp := some 5 } (by decide) (by decide) (by decide)).1
    (by decide)).1

/-- C9: in every processing mode — streaming, buffered, follow history and
follow tail — a line that fails JSON decoding is silently skipped: the
whole run (output, display state, correlation maps) equals the run on the
input with that line removed, so a malformed line never surfaces an error
and never aborts the remaining records. -/
theorem C9_malformed_line_skipped (ext : ExtEnv) (cfg : Config) (st : DState)
    (maps : ToolUseMap × ToolInputMap) (pre post : List String) (bad : String)
    (hbad : parseLine bad = none) :
    processStreaming ext cfg (pre ++ bad :: post) st =
      processStreaming ext cfg (pre ++ post) st ∧
    processBuffered ext cfg (pre ++ bad :: post) st =
      processBuffered ext cfg (pre ++ post) st ∧
    processFollowHistory ext cfg (pre ++ bad :: post) st =
      processFollowHistory ext cfg (pre ++ post) st ∧
    processFollowNewLines ext cfg (pre ++ bad :: post) maps st =
      processFollowNewLines ext cfg (pre ++ post) maps st := by
  have hdec : decodeLines (pre ++ bad :: post) = decodeLines (pre ++ post) := by
    simp [decodeLines, hbad]
  refine ⟨?_, ?_, ?_, ?_⟩
  · simp only [processStreaming, List.foldl_append, List.foldl_cons, hbad]
  · simp only [processBuffered, hdec]
  · simp only [processFollowHistory, processBuffered, buildToolMaps, hdec]
  · simp only [processFollowNewLines, List.foldl_append, List.foldl_cons, hbad]

/-- C9 witness at a concrete input. -/
theorem C9_malformed_line_skipped_witness :
    processBuffered extNoTime {} ["\x7b\"type\":\"user\"\x7d", "not json"] {} =
      processBuffered extNoTime {} ["\x7b\"type\":\"user\"\x7d"] {} :=
  (C9_malformed_line_skipped extNoTime {} {} ([], [])
    ["\x7b\"type\":\"user\"\x7d"] [] "not json" (by decide)).2.1

/-!
Correlation-table lemmas for the forward-reference property: bindings of
the maps built by the pass-1 fold are exactly the tool_use blocks of the
decoded assistant records.
-/

/-- A content item that records the binding id ↦ name when observed: an
object of type tool_use with that string id and name (field access on a
non-object yields none, so the typing conjunct forces objecthood). -/
def ItemBindsToolUse (item : JValue) (t n : String) : Prop :=
  jGet item "type" = some (.str "tool_use") ∧
  jAsString (jGet item "id") = some t ∧
  jAsString (jGet item "name") = some n

/-- An assistant record holding a tool_use block with the given id and
name among its message content. -/
def EntryBindsToolUse (entry : JValue) (t n : String) : Prop :=
  jGetStringD entry "type" = "assistant" ∧
  ∃ message content, jAsObj (jGet entry "message") = some message ∧
    jAsArr (jGet message "content") = some content ∧
    ∃ item ∈ content, ItemBindsToolUse item t n

theorem mem_fst_collectToolUseItem {p : String × String}
    {m : ToolUseMap × ToolInputMap} (item : JValue) (h : p ∈ m.1) :
    p ∈ (collectToolUseItem m item).1 := by
  unfold collectToolUseItem
  repeat' split
  all_goals first
    | exact h
    | exact List.mem_cons_of_mem _ h

theorem mem_fst_foldItems {p : String × String} (items : List JValue) :
    ∀ {m : ToolUseMap × ToolInputMap}, p ∈ m.1 →
      p ∈ (items.foldl collectToolUseItem m).1 := by
  induction items with
  | nil => intro m h; exact h
  | cons item rest ih =>
    intro m h
    exact ih (mem_fst_collectToolUseItem item h)

theorem mem_fst_observeEntry {p : String × String}
    {m : ToolUseMap × ToolInputMap} (e : JValue) (h : p ∈ m.1) :
    p ∈ (observeEntry m e).1 := by
  unfold observeEntry collectToolUseInfo
  repeat' split
  all_goals first
    | exact h
    | exact mem_fst_foldItems _ h

theorem mem_fst_foldEntries {p : String × String} (entries : List JValue) :
    ∀ {m : ToolUseMap × ToolInputMap}, p ∈ m.1 →
      p ∈ (entries.foldl observeEntry m).1 := by
  induction entries with
  | nil => intro m h; exact h
  | cons e rest ih =>
    intro m h
    exact ih (mem_fst_observeEntry e h)

theorem collectToolUseItem_binds {m : ToolUseMap × ToolInputMap}
    {item : JValue} {t n : String} (h : ItemBindsToolUse item t n) :
    (t, n) ∈ (collectToolUseItem m item).1 := by
  obtain ⟨hty, hid, hname⟩ := h
  obtain ⟨o, rfl⟩ : ∃ o, item = JValue.obj o := by
    cases item <;> simp [jGet] at hty
    exact ⟨_, rfl⟩
  unfold collectToolUseItem
  simp only [jAsObj]
  rw [if_pos hty]
  rw [show jAsString (jGet (JValue.obj o) "id") = some t from hid]
  rw [show jAsString (jGet (JValue.obj o) "name") = some n from hname]
  simp only [goAssign]
  exact List.mem_cons_self _ _

theorem foldItems_binds {t n : String} (items : List JValue) :
    ∀ {m : ToolUseMap × ToolInputMap} {item : JValue}, item ∈ items →
      ItemBindsToolUse item t n →
      (t, n) ∈ (items.foldl collectToolUseItem m).1 := by
  induction items with
  | nil => intro m item h; cases h
  | cons i rest ih =>
    intro m item h hb
    rcases List.mem_cons.mp h with rfl | h'
    · exact mem_fst_foldItems rest (collectToolUseItem_binds hb)
    · exact ih h' hb

theorem observeEntry_binds {m : ToolUseMap × ToolInputMap} {e : JValue}
    {t n : String} (h : EntryBindsToolUse e t n) :
    (t, n) ∈ (observeEntry m e).1 := by
  obtain ⟨hty, message, content, hm, hc, item, hmem, hb⟩ := h
  unfold observeEntry
  rw [if_pos hty]
  simp only [collectToolUseInfo, hm, hc]
  exact foldItems_binds content hmem hb

theorem foldEntries_binds {t n : String} (entries : List JValue) :
    ∀ {m : ToolUseMap × ToolInputMap} {e : JValue}, e ∈ entries →
      EntryBindsToolUse e t n →
      (t, n) ∈ (entries.foldl observeEntry m).1 := by
  induction entries with
  | nil => intro m e h; cases h
  | cons e0 rest ih =>
    intro m e h hb
    rcases List.mem_cons.mp h with rfl | h'
    · exact mem_fst_foldEntries rest (observeEntry_binds hb)
    · exact ih h' hb

theorem collectToolUseItem_complete {p : String × String}
    {m : ToolUseMap × ToolInputMap} {item : JValue}
    (h : p ∈ (collectToolUseItem m item).1) :
    p ∈ m.1 ∨ ItemBindsToolUse item p.1 p.2 := by
  cases item with
  | obj o =>
    unfold collectToolUseItem at h
    simp only [jAsObj] at h
    by_cases hty : jGet (JValue.obj o) "type" = some (JValue.str "tool_use")
    · rw [if_pos hty] at h
      cases hid : jAsString (jGet (JValue.obj o) "id") with
      | none =>
        simp only [hid] at h
        exact Or.inl h
      | some tid =>
        simp only [hid] at h
        cases hname : jAsString (jGet (JValue.obj o) "name") with
        | none =>
          simp only [hname] at h
          exact Or.inl h
        | some nm =>
          simp only [hname, goAssign] at h
          rcases List.mem_cons.mp h with rfl | hp
          · exact Or.inr ⟨hty, hid, hname⟩
          · exact Or.inl hp
    · rw [if_neg hty] at h
      exact Or.inl h
  | null =>
    simp only [collectToolUseItem, jAsObj] at h
    exact Or.inl h
  | bool b =>
    simp only [collectToolUseItem, jAsObj] at h
    exact Or.inl h
  | num n' =>
    simp only [collectToolUseItem, jAsObj] at h
    exact Or.inl h
  | str s' =>
    simp only [collectToolUseItem, jAsObj] at h
    exact Or.inl h
  | arr a =>
    simp only [collectToolUseItem, jAsObj] at h
    exact Or.inl h

theorem foldItems_complete {p : String × String} (items : List JValue) :
    ∀ {m : ToolUseMap × ToolInputMap},
      p ∈ (items.foldl collectToolUseItem m).1 →
      p ∈ m.1 ∨ ∃ item ∈ items, ItemBindsToolUse item p.1 p.2 := by
  induction items with
  | nil => intro m h; exact Or.inl h
  | cons i rest ih =>
    intro m h
    rcases ih h with h' | ⟨item, hmem, hb⟩
    · rcases collectToolUseItem_complete h' with h'' | hb
      · exact Or.inl h''
      · exact Or.inr ⟨i, List.mem_cons_self _ _, hb⟩
    · exact Or.inr ⟨item, List.mem_cons_of_mem _ hmem, hb⟩

theorem observeEntry_complete {p : String × String}
    {m : ToolUseMap × ToolInputMap} {e : JValue}
    (h : p ∈ (observeEntry m e).1) :
    p ∈ m.1 ∨ EntryBindsToolUse e p.1 p.2 := by
  unfold observeEntry at h
  by_cases hty : jGetStringD e "type" = "assistant"
  · rw [if_pos hty] at h
    unfold collectToolUseInfo at h
    cases hm : jAsObj (jGet e "message") with
    | none =>
      simp only [hm] at h
      exact Or.inl h
    | some message =>
      simp only [hm] at h
      cases hc : jAsArr (jGet message "content") with
      | none =>
        simp only [hc] at h
        exact Or.inl h
      | some content =>
        simp only [hc] at h
        rcases foldItems_complete content h with h' | ⟨item, hmem, hb⟩
        · exact Or.inl h'
        · exact Or.inr ⟨hty, message, content, hm, hc, item, hmem, hb⟩
  · rw [if_neg hty] at h
    exact Or.inl h

theorem foldEntries_complete {p : String × String} (entries : List JValue) :
    ∀ {m : ToolUseMap × ToolInputMap},
      p ∈ (entries.foldl observeEntry m).1 →
      p ∈ m.1 ∨ ∃ e ∈ entries, EntryBindsToolUse e p.1 p.2 := by
  induction entries with
  | nil => intro m h; exact Or.inl h
  | cons e rest ih =>
    intro m h
    rcases ih h with h' | ⟨e', hmem, hb⟩
    · rcases observeEntry_complete h' with h'' | hb
      · exact Or.inl h''
      · exact Or.inr ⟨e, List.mem_cons_self _ _, hb⟩
    · exact Or.inr ⟨e', List.mem_cons_of_mem _ hmem, hb⟩

/-- The name table built by pass 1 resolves id t to n as soon as some
decoded record binds t to n and every decoded record that binds t binds it
to the same n. -/
theorem buildToolMaps_lookup (lines : List String) (t n : String)
    (hex : ∃ e ∈ decodeLines lines, EntryBindsToolUse e t n)
    (huni : ∀ e ∈ decodeLines lines, ∀ n', EntryBindsToolUse e t n' → n' = n) :
    goLookup (buildToolMaps lines).1 t = some n := by
  obtain ⟨e, hmem, hb⟩ := hex
  have hmemtn : (t, n) ∈ (buildToolMaps lines).1 :=
    foldEntries_binds (decodeLines lines) hmem hb
  have hfind : ∃ q, ((buildToolMaps lines).1.find? fun p => p.1 = t) = some q := by
    rw [← Option.isSome_iff_exists]
    rw [List.find?_isSome]
    exact ⟨(t, n), hmemtn, by simp⟩
  obtain ⟨q, hq⟩ := hfind
  have hqt : q.1 = t := by
    have := List.find?_some hq
    simpa using this
  have hqmem : q ∈ (buildToolMaps lines).1 := List.mem_of_find?_eq_some hq
  have hqn : q.2 = n := by
    rcases foldEntries_complete (decodeLines lines) hqmem with h' | ⟨e', hmem', hb'⟩
    · cases h'
    · exact huni e' hmem' q.2 (hqt ▸ hb')
  unfold goLookup
  rw [hq]
  simp [hqn]

theorem firstToolResultBlock_any (l : List JValue) (blk : JValue)
    (h : firstToolResultBlock l = some blk) :
    (l.any fun content => jGet content "type" = some (.str "tool_result")) =
      true := by
  induction l with
  | nil => simp [firstToolResultBlock] at h
  | cons item rest ih =>
    unfold firstToolResultBlock at h
    cases hobj : jAsObj (some item) with
    | none =>
      simp only [hobj] at h
      have hne : jGet item "type" ≠ some (JValue.str "tool_result") := by
        cases item <;> simp [jGet] <;> simp [jAsObj] at hobj
      simp only [List.any_cons]
      rw [ih h]
      simp
    | some m =>
      simp only [hobj] at h
      have hm : m = item := by
        cases item <;> simp [jAsObj] at hobj <;> first
          | exact hobj.symm
          | cases hobj
      subst hm
      by_cases hty : jGet m "type" = some (JValue.str "tool_result")
      · simp only [List.any_cons, hty]
        simp
      · rw [if_neg hty] at h
        simp only [List.any_cons]
        rw [ih h]
        simp

theorem displayToolResult_shows_name (cfg : Config) (message : JValue)
    (timeStr versionStr : String) (names : ToolUseMap) (inputs : ToolInputMap)
    (tur : Option JValue) (n : String)
    (hdn : displayedToolName (extractContent message) names = some n) :
    ∃ p q, displayToolResult cfg message timeStr versionStr names inputs tur =
      p ++ (" " ++ color cfg colorGray ++ "(" ++ n ++ ")" ++ colorReset) ++ q := by
  simp only [displayToolResult, hdn]
  exact ⟨_, _, rfl⟩

/-- C2: in buffered mode, when some line decodes to a user record whose
first tool_result block carries tool_use_id t, and some (possibly later)
line decodes to an assistant record binding t to tool name n — ids being
bound consistently, as the transcript format guarantees ids are never
reused — pass 1's completed correlation table resolves t to n, and pass
2's rendering of the tool-result record displays the resolved name n in
its header. -/
theorem C2_buffered_forward_reference (ext : ExtEnv) (cfg : Config)
    (lines : List String) (entry message blk : JValue) (t n : String)
    (hmem : entry ∈ decodeLines lines)
    (htype : jGetStringD entry "type" = "user")
    (hmsg : jAsObj (jGet entry "message") = some message)
    (hblk : firstToolResultBlock (extractContent message) = some blk)
    (hid : jAsString (jGet blk "tool_use_id") = some t)
    (hex : ∃ e ∈ decodeLines lines, EntryBindsToolUse e t n)
    (huni : ∀ e ∈ decodeLines lines, ∀ n', EntryBindsToolUse e t n' → n' = n) :
    goLookup (buildToolMaps lines).1 t = some n ∧
    displayedToolName (extractContent message) (buildToolMaps lines).1 =
      some n ∧
    (∀ st : DState,
      shouldDisplayEntryWithToolInfo cfg "user" entry
        (buildToolMaps lines).1 = true →
      cfg.OutputFormat ≠ "json" →
      ∃ p q, (displayEntryWithToolInfo ext cfg entry (buildToolMaps lines).1
          (buildToolMaps lines).2 st).1 =
        p ++ (" " ++ color cfg colorGray ++ "(" ++ n ++ ")" ++ colorReset) ++ q) := by
  have hlookup := buildToolMaps_lookup lines t n hex huni
  have hdn : displayedToolName (extractContent message)
      (buildToolMaps lines).1 = some n := by
    simp only [displayedToolName, hblk, hid, hlookup]
  refine ⟨hlookup, hdn, ?_⟩
  intro st hacc hj
  simp only [displayEntryWithToolInfo, htype]
  rw [if_neg (not_not_intro hacc), if_neg hj]
  simp only [if_true]
  have hany := firstToolResultBlock_any _ _ hblk
  simp only [displayUserMessage, hmsg, hany, if_true]
  exact displayToolResult_shows_name cfg message _ _ _ _ _ n hdn

def lineAssistant : String :=
  "\x7b\"type\":\"assistant\",\"message\":\x7b\"content\":[\x7b\"type\":\"tool_use\",\"id\":\"t1\",\"name\":\"Bash\",\"input\":\x7b\"command\":\"ls\"\x7d\x7d]\x7d\x7d"

def lineUserResult : String :=
  "\x7b\"type\":\"user\",\"message\":\x7b\"content\":[\x7b\"type\":\"tool_result\",\"tool_use_id\":\"t1\",\"content\":\"file.txt\"\x7d]\x7d\x7d"

def fwdAssistantBlock : JValue :=
  .obj (.cons "id" (.str "t1") (.cons "input"
    (.obj (.cons "command" (.str "ls") .nil))
    (.cons "name" (.str "Bash") (.cons "type" (.str "tool_use") .nil))))

def fwdAssistantEntry : JValue :=
  .obj (.cons "message"
    (.obj (.cons "content" (.arr (.cons fwdAssistantBlock .nil)) .nil))
    (.cons "type" (.str "assistant") .nil))

/-- C2 witness: the tool result appears before its invocation in file
order, yet the buffered correlation table resolves and the header displays
the name. -/
theorem C2_buffered_forward_reference_witness :
    displayedToolName (extractContent userToolResultMessage)
      (buildToolMaps [lineUserResult, lineAssistant]).1 = some "Bash" := by
  have hdec : decodeLines [lineUserResult, lineAssistant] =
      [userToolResultEntry, fwdAssistantEntry] := by decide
  refine (C2_buffered_forward_reference extNoTime {}
    [lineUserResult, lineAssistant] userToolResultEntry userToolResultMessage
    toolResultBlock "t1" "Bash" ?_ (by decide) (by decide) (by decide)
    (by decide) ?_ ?_).2.1
  · rw [hdec]
    exact List.mem_cons_self _ _
  · refine ⟨fwdAssistantEntry, ?_, ?_⟩
    · rw [hdec]
      exact List.mem_cons_of_mem _ (List.mem_cons_self _ _)
    · exact ⟨by decide, _, _, rfl, rfl, fwdAssistantBlock,
        List.mem_cons_self _ _, by decide, by decide, by decide⟩
  · intro e he n' hb
    rw [hdec] at he
    rcases List.mem_cons.mp he with rfl | he'
    · exact absurd hb.1 (by decide)
    · rcases List.mem_cons.mp he' with rfl | he''
      · obtain ⟨hty, message, content, hm, hc, item, hitem, hb1, hb2, hb3⟩ := hb
        have hmsg : message =
            JValue.obj (.cons "content" (.arr (.cons fwdAssistantBlock .nil)) .nil) := by
          have : jAsObj (jGet fwdAssistantEntry "message") =
              some (JValue.obj (.cons "content"
                (.arr (.cons fwdAssistantBlock .nil)) .nil)) := by decide
          rw [this] at hm
          exact (Option.some.inj hm).symm
        subst hmsg
        have hcontent : content = [fwdAssistantBlock] := by
          have : jAsArr (jGet (JValue.obj (.cons "content"
              (.arr (.cons fwdAssistantBlock .nil)) .nil)) "content") =
              some [fwdAssistantBlock] := by decide
          rw [this] at hc
          exact (Option.some.inj hc).symm
        subst hcontent
        have hitem' : item = fwdAssistantBlock := by simpa using hitem
        subst hitem'
        have : jAsString (jGet fwdAssistantBlock "name") = some "Bash" := by decide
        rw [this] at hb3
        exact (Option.some.inj hb3).symm
      · cases he''

/-!
Round-trip correctness of the encoding/json model (claim C6): parsing the
marshalled form of any value the decoder can produce yields the value
back.
-/

theorem strLtB_irrefl (a : List Char) : strLtB a a = false := by
  induction a with
  | nil => rfl
  | cons c t ih => simp [strLtB, ih]

theorem strLtB_trans : ∀ {a b c : List Char}, strLtB a b = true →
    strLtB b c = true → strLtB a c = true := by
  intro a
  induction a with
  | nil =>
    intro b c hab hbc
    cases b with
    | nil => exact hbc
    | cons bb bt =>
      cases c with
      | nil => simp [strLtB] at hbc
      | cons cc ct => rfl
  | cons ac at' ih =>
    intro b c hab hbc
    cases b with
    | nil => simp [strLtB] at hab
    | cons bb bt =>
      cases c with
      | nil => simp [strLtB] at hbc
      | cons cc ct =>
        simp only [strLtB] at hab hbc ⊢
        split at hab
        · rename_i h1
          split at hbc
          · rename_i h2
            rw [if_pos (lt_trans h1 h2)]
          · split at hbc
            · simp at hbc
            · rename_i h2 h3
              have he : cc = bb := le_antisymm (not_lt.mp h2) (not_lt.mp h3)
              subst he
              rw [if_pos h1]
        · split at hab
          · simp at hab
          · rename_i h1 h2
            have he : bb = ac := le_antisymm (not_lt.mp h1) (not_lt.mp h2)
            subst he
            split at hbc
            · rename_i h3
              rw [if_pos h3]
            · split at hbc
              · simp at hbc
              · rename_i h3 h4
                have he2 : cc = bb := le_antisymm (not_lt.mp h3) (not_lt.mp h4)
                subst he2
                rw [if_neg (lt_irrefl _), if_neg (lt_irrefl _)]
                exact ih hab hbc

theorem strLtB_connex : ∀ {a b : List Char}, strLtB a b = false →
    strLtB b a = false → a = b := by
  intro a
  induction a with
  | nil =>
    intro b hab _
    cases b with
    | nil => rfl
    | cons bb bt => simp [strLtB] at hab
  | cons ac at' ih =>
    intro b hab hba
    cases b with
    | nil => simp [strLtB] at hba
    | cons bb bt =>
      simp only [strLtB] at hab hba
      split at hab
      · simp at hab
      · split at hab
        · rename_i h1 h2
          rw [if_pos h2] at hba
          simp at hba
        · rename_i h1 h2
          have he : bb = ac := le_antisymm (not_lt.mp h1) (not_lt.mp h2)
          subst he
          rw [if_neg (lt_irrefl _), if_neg (lt_irrefl _)] at hba
          rw [ih hab hba]

theorem keyLt_irrefl (k : String) : keyLt k k = false := strLtB_irrefl _

theorem keyLt_trans {a b c : String} (h1 : keyLt a b = true)
    (h2 : keyLt b c = true) : keyLt a c = true := strLtB_trans h1 h2

theorem keyLt_connex {a b : String} (h1 : keyLt a b = false)
    (h2 : keyLt b a = false) : a = b := by
  have := strLtB_connex h1 h2
  cases a
  cases b
  exact congrArg String.mk this

theorem keyLt_asymm {a b : String} (h : keyLt a b = true) :
    keyLt b a = false := by
  by_contra hc
  have hba : keyLt b a = true := by
    cases hh : keyLt b a
    · exact absurd hh hc
    · rfl
  have := keyLt_trans h hba
  rw [keyLt_irrefl] at this
  cases this

theorem parseHexDigit_hexDigitChar : ∀ x < 16,
    parseHexDigit (hexDigitChar x) = some x := by decide

theorem digitChar_facts : ∀ k < 10,
    (Char.ofNat (k + 48)).isDigit = true ∧
    (Char.ofNat (k + 48)).toNat - 48 = k := by decide

/-- Consuming stops immediately on a non-digit head. -/
theorem parseNatLoop_stop (acc : Nat) (rest : List Char)
    (h : ∀ c, rest.head? = some c → c.isDigit = false) :
    parseNatLoop acc rest = (acc, rest) := by
  cases rest with
  | nil => rfl
  | cons c r =>
    have hc := h c rfl
    simp [parseNatLoop, hc]

theorem parseNatLoop_digits : ∀ fuel n acc rest, n < fuel →
    parseNatLoop acc (natDigitsAux fuel n ++ rest) =
      parseNatLoop (acc * 10 ^ (natDigitsAux fuel n).length + n) rest := by
  intro fuel
  induction fuel with
  | zero => intro n acc rest h; omega
  | succ fuel ih =>
    intro n acc rest h
    by_cases hn : n < 10
    · simp only [natDigitsAux, if_pos hn]
      obtain ⟨hdig, hval⟩ := digitChar_facts n hn
      simp only [List.singleton_append, List.length_cons, List.length_nil,
        parseNatLoop, hdig, if_pos]
      rw [hval]
      norm_num
    · simp only [natDigitsAux, if_neg hn]
      rw [List.append_assoc, List.singleton_append]
      have hlt : n / 10 < fuel := by omega
      rw [ih (n / 10) acc _ hlt]
      obtain ⟨hdig, hval⟩ := digitChar_facts (n % 10) (by omega)
      simp only [parseNatLoop, hdig, if_pos]
      rw [hval]
      rw [List.length_append, List.length_singleton]
      have : (acc * 10 ^ (natDigitsAux fuel (n / 10)).length + n / 10) * 10 +
          n % 10 = acc * 10 ^ ((natDigitsAux fuel (n / 10)).length + 1) + n := by
        rw [pow_succ]
        have hmod := Nat.div_add_mod n 10
        ring_nf
        omega
      rw [this]

theorem digitChar_facts2 : ∀ k < 10, (Char.ofNat (k + 48)).isDigit = true ∧
    (1 ≤ k → Char.ofNat (k + 48) ≠ '0') := by decide

theorem natDigitsAux_head : ∀ fuel n, n < fuel →
    ∃ d rest, natDigitsAux fuel n = d :: rest ∧ d.isDigit = true ∧
      (1 ≤ n → d ≠ '0') := by
  intro fuel
  induction fuel with
  | zero => intro n h; omega
  | succ fuel ih =>
    intro n h
    by_cases hn : n < 10
    · refine ⟨Char.ofNat (n + 48), [], by simp [natDigitsAux, hn], ?_, ?_⟩
      · exact (digitChar_facts2 n hn).1
      · exact (digitChar_facts2 n hn).2
    · obtain ⟨d, rest, heq, hdig, hz⟩ := ih (n / 10) (by omega)
      refine ⟨d, rest ++ [Char.ofNat (n % 10 + 48)], ?_, hdig, ?_⟩
      · simp [natDigitsAux, hn, heq]
      · intro _
        exact hz (by omega)

theorem parseHexDigit_vals : parseHexDigit '0' = some 0 ∧
    parseHexDigit '2' = some 2 ∧ parseHexDigit '8' = some 8 ∧
    parseHexDigit '9' = some 9 := by decide

theorem parseStringChars_eq_quote (rest : List Char) :
    parseStringChars ('"' :: rest) = some ([], rest) := by
  unfold parseStringChars
  rfl

theorem parseStringChars_marshal : ∀ (s : List Char) (rest : List Char),
    parseStringChars (marshalStringChars s ++ '"' :: rest) = some (s, rest) := by
  intro s
  induction s with
  | nil =>
    intro rest
    conv_lhs => rw [marshalStringChars.eq_def]
    rw [List.nil_append, parseStringChars_eq_quote]
  | cons c t ih =>
    intro rest
    by_cases h1 : c = '"'
    · subst h1
      conv_lhs => rw [marshalStringChars.eq_def]
      simp +decide only [List.cons_append]
      conv_lhs => rw [parseStringChars.eq_def]
      simp +decide [ih rest]
    · by_cases h2 : c = '\\'
      · subst h2
        conv_lhs => rw [marshalStringChars.eq_def]
        simp +decide only [List.cons_append]
        conv_lhs => rw [parseStringChars.eq_def]
        simp +decide [ih rest]
      · by_cases h3 : c = '\n'
        · subst h3
          conv_lhs => rw [marshalStringChars.eq_def]
          simp +decide only [List.cons_append]
          conv_lhs => rw [parseStringChars.eq_def]
          simp +decide [ih rest]
        · by_cases h4 : c = '\r'
          · subst h4
            conv_lhs => rw [marshalStringChars.eq_def]
            simp +decide only [List.cons_append]
            conv_lhs => rw [parseStringChars.eq_def]
            simp +decide [ih rest]
          · by_cases h5 : c = '\t'
            · subst h5
              conv_lhs => rw [marshalStringChars.eq_def]
              simp +decide only [List.cons_append]
              conv_lhs => rw [parseStringChars.eq_def]
              simp +decide [ih rest]
            · by_cases h6 : c.toNat < 32 ∨ c = '<' ∨ c = '>' ∨ c = '&'
              · have hchunk : marshalStringChars (c :: t) =
                    '\\' :: 'u' :: '0' :: '0' :: hexDigitChar (c.toNat / 16) ::
                      hexDigitChar (c.toNat % 16) :: marshalStringChars t := by
                  conv_lhs => rw [marshalStringChars.eq_def]
                  simp only
                  rw [if_neg h1, if_neg h2, if_neg h3, if_neg h4, if_neg h5,
                    if_pos h6]
                  simp
                rw [hchunk]
                have hlt : c.toNat < 256 := by
                  rcases h6 with h | h | h | h
                  · omega
                  all_goals rw [h]; decide
                have hv1 : parseHexDigit (hexDigitChar (c.toNat / 16)) =
                    some (c.toNat / 16) :=
                  parseHexDigit_hexDigitChar _ (by omega)
                have hv2 : parseHexDigit (hexDigitChar (c.toNat % 16)) =
                    some (c.toNat % 16) :=
                  parseHexDigit_hexDigitChar _ (by omega)
                simp only [List.cons_append]
                conv_lhs => rw [parseStringChars.eq_def]
                simp +decide [hv1, hv2, ih rest, parseHexDigit_vals.1,
                  show ((0 * 16 + 0) * 16 + c.toNat / 16) * 16 + c.toNat % 16 =
                    c.toNat from by omega,
                  show (c.toNat / 16) * 16 + c.toNat % 16 = c.toNat from by
                    omega,
                  show ¬(55296 ≤ c.toNat ∧ c.toNat < 57344) from by omega,
                  Char.ofNat_toNat]
              · by_cases h7 : c.toNat = 8232
                · have hc : c = Char.ofNat 8232 := by
                    rw [← h7, Char.ofNat_toNat]
                  subst hc
                  conv_lhs => rw [marshalStringChars.eq_def]
                  simp +decide only [List.cons_append]
                  conv_lhs => rw [parseStringChars.eq_def]
                  simp +decide [ih rest, parseHexDigit_vals.1,
                    parseHexDigit_vals.2.1, parseHexDigit_vals.2.2.1]
                · by_cases h8 : c.toNat = 8233
                  · have hc : c = Char.ofNat 8233 := by
                      rw [← h8, Char.ofNat_toNat]
                    subst hc
                    conv_lhs => rw [marshalStringChars.eq_def]
                    simp +decide only [List.cons_append]
                    conv_lhs => rw [parseStringChars.eq_def]
                    simp +decide [ih rest, parseHexDigit_vals.1,
                      parseHexDigit_vals.2.1, parseHexDigit_vals.2.2.2]
                  · have hchunk : marshalStringChars (c :: t) =
                        c :: marshalStringChars t := by
                      conv_lhs => rw [marshalStringChars.eq_def]
                      simp only
                      rw [if_neg h1, if_neg h2, if_neg h3, if_neg h4, if_neg h5,
                        if_neg h6, if_neg (by omega), if_neg (by omega)]
                      simp
                    rw [hchunk]
                    simp only [List.cons_append]
                    conv_lhs => rw [parseStringChars.eq_def]
                    simp [if_neg h1, if_neg h2,
                      if_neg (show ¬c.toNat < 32 from by omega), ih rest]

/-- Delimiter condition: the continuation does not start with a digit, so
number parsing stops exactly at the marshalled digits. -/
def DelimOk (rest : List Char) : Prop :=
  ∀ c, rest.head? = some c → c.isDigit = false

theorem skipWs_cons (c : Char) (s : List Char)
    (h : ¬(c = ' ' ∨ c = '\t' ∨ c = '\n' ∨ c = '\r')) :
    skipWs (c :: s) = c :: s := by
  unfold skipWs
  rw [if_neg h]

theorem isDigit_bounds {c : Char} (hc : c.isDigit = true) :
    48 ≤ c.toNat ∧ c.toNat ≤ 57 := by
  simp only [Char.isDigit, Bool.and_eq_true, decide_eq_true_eq] at hc
  exact ⟨hc.1, hc.2⟩

theorem isDigit_char_facts {c : Char} (hc : c.isDigit = true) :
    ¬c = 'n' ∧ ¬c = 't' ∧ ¬c = 'f' ∧ ¬c = '"' ∧ ¬c = '[' ∧ ¬c = '{' ∧
      ¬c = '-' ∧ ¬(c = ' ' ∨ c = '\t' ∨ c = '\n' ∨ c = '\r') := by
  have hv := isDigit_bounds hc
  refine ⟨?_, ?_, ?_, ?_, ?_, ?_, ?_, ?_⟩
  all_goals first
    | (intro h; subst h; revert hv; decide)
    | (rintro (h | h | h | h) <;> (subst h; revert hv; decide))

theorem parseNatLoop_skip_digit {c : Char} (hc : c.isDigit = true)
    (acc : Nat) (X : List Char) :
    parseNatLoop acc (c :: X) = parseNatLoop (acc * 10 + (c.toNat - 48)) X := by
  conv_lhs => rw [parseNatLoop.eq_def]
  simp only
  rw [if_pos hc]

theorem parseNat_natStr (N : Nat) (rest : List Char) (hD : DelimOk rest) :
    parseNatLoop 0 (natStr N ++ rest) = (N, rest) := by
  unfold natStr
  rw [parseNatLoop_digits (N + 1) N 0 rest (by omega)]
  rw [parseNatLoop_stop _ _ hD]
  simp

theorem natStr_shape (N : Nat) : ∃ c ds, natStr N = c :: ds ∧ c.isDigit = true ∧
    (1 ≤ N → c ≠ '0') := by
  obtain ⟨d, r, he, hd, hz⟩ := natDigitsAux_head (N + 1) N (by omega)
  exact ⟨d, r, he, hd, hz⟩

theorem parseNatLoop_marshal (N : Nat) (c : Char) (ds rest : List Char)
    (hns : natStr N = c :: ds) (hdig : c.isDigit = true) (hD : DelimOk rest) :
    parseNatLoop (c.toNat - 48) (ds ++ rest) = (N, rest) := by
  have h0 : parseNatLoop 0 (c :: (ds ++ rest)) =
      parseNatLoop (c.toNat - 48) (ds ++ rest) := by
    rw [parseNatLoop_skip_digit hdig]
    norm_num
  rw [← h0, show c :: (ds ++ rest) = (c :: ds) ++ rest from rfl, ← hns]
  exact parseNat_natStr N rest hD

theorem beq_zero_of_ne {c : Char} (h : c ≠ '0') : (c == '0') = false := by
  simp [h]


theorem natStr_zero : natStr 0 = ['0'] := by decide

theorem parseValue_num (n : Int) (rest : List Char) (fuel : Nat)
    (hD : DelimOk rest) (hf : 1 ≤ fuel) :
    parseValue fuel (intStr n ++ rest) = some (.num n, rest) := by
  obtain ⟨f, rfl⟩ : ∃ f, fuel = f + 1 := ⟨fuel - 1, by omega⟩
  by_cases hneg : n < 0
  · simp only [intStr, if_pos hneg]
    obtain ⟨c, ds, hns, hdig, hz⟩ := natStr_shape n.natAbs
    have hnz : 1 ≤ n.natAbs := by omega
    rw [hns]
    conv_lhs => rw [parseValue.eq_def]
    simp only [List.cons_append]
    rw [skipWs_cons _ _ (by decide)]
    simp +decide only
    rw [if_pos hdig, beq_zero_of_ne (hz hnz)]
    simp only [Bool.false_and, Bool.false_eq_true, if_false]
    rw [parseNatLoop_marshal n.natAbs c ds rest hns hdig hD]
    have : -(n.natAbs : Int) = n := by omega
    rw [this]
    simp
  · simp only [intStr, if_neg hneg]
    obtain ⟨c, ds, hns, hdig, hz⟩ := natStr_shape n.toNat
    obtain ⟨e1, e2, e3, e4, e5, e6, e7, e8⟩ := isDigit_char_facts hdig
    rw [hns]
    conv_lhs => rw [parseValue.eq_def]
    simp only [List.cons_append]
    rw [skipWs_cons _ _ e8]
    simp only
    rw [if_neg e1, if_neg e2, if_neg e3, if_neg e4, if_neg e5, if_neg e6,
      if_neg e7, if_pos hdig]
    have hguard : (c == '0' && (match ds ++ rest with
        | c2 :: _ => c2.isDigit
        | [] => false)) = false := by
      by_cases h0 : n.toNat = 0
      · have hds : ds = [] := by
          rw [h0, natStr_zero] at hns
          exact (List.cons.injEq _ _ _ _ ▸ hns).2.symm ▸ rfl
        subst hds
        simp only [List.nil_append]
        cases hr : rest with
        | nil => simp
        | cons c2 r2 =>
          have := hD c2 (by rw [hr]; rfl)
          simp [this]
      · rw [beq_zero_of_ne (hz (by omega))]
        simp
    rw [hguard]
    simp only [Bool.false_eq_true, if_false]
    rw [parseNatLoop_marshal n.toNat c ds rest hns hdig hD]
    have : (n.toNat : Int) = n := by omega
    rw [this]

/-- All keys of the object are strictly greater than k (canonical objects
are strictly key-sorted, so this holds of each key vs its tail). -/
def JObj.keysGtB (k : String) : JObj → Bool
  | .nil => true
  | .cons k' _ t => keyLt k k' && t.keysGtB k

mutual

/-- Canonical values: every object in the tree is strictly key-sorted (the
form the decoder produces for Go's unordered maps, and the order
json.Marshal emits). -/
def canonV : JValue → Bool
  | .null => true
  | .bool _ => true
  | .num _ => true
  | .str _ => true
  | .arr x => canonA x
  | .obj o => canonO o

def canonA : JArr → Bool
  | .nil => true
  | .cons v t => canonV v && canonA t

def canonO : JObj → Bool
  | .nil => true
  | .cons k v t => canonV v && canonO t && t.keysGtB k

end

mutual

/-- Fuel needed by the parser on the marshalled form. -/
def needV : JValue → Nat
  | .null => 1
  | .bool _ => 1
  | .num _ => 1
  | .str _ => 1
  | .arr x => 1 + needI x
  | .obj o => 1 + needM o

def needI : JArr → Nat
  | .nil => 0
  | .cons v t => 1 + needV v + needI t

def needM : JObj → Nat
  | .nil => 0
  | .cons _ v t => 1 + needV v + needM t

end

/-- Append a binding at the end of an object. -/
def JObj.appendKV : JObj → String → JValue → JObj
  | .nil, k, v => .cons k v .nil
  | .cons k' v' t, k, v => .cons k' v' (t.appendKV k v)

/-- All keys of o are strictly below k. -/
def JObj.keysLtB (o : JObj) (k : String) : Bool :=
  match o with
  | .nil => true
  | .cons k' _ t => keyLt k' k && t.keysLtB k

theorem insertMember_eq_appendKV : ∀ (o : JObj) (k : String) (v : JValue),
    o.keysLtB k = true → o.insertMember k v = o.appendKV k v
  | .nil, _, _, _ => rfl
  | .cons k' v' t, k, v, h => by
    simp only [JObj.keysLtB, Bool.and_eq_true] at h
    obtain ⟨h1, h2⟩ := h
    simp only [JObj.insertMember, JObj.appendKV]
    rw [if_neg, if_neg, insertMember_eq_appendKV t k v h2]
    · intro he
      subst he
      rw [keyLt_irrefl] at h1
      cases h1
    · rw [keyLt_asymm h1]
      intro hf
      cases hf

theorem keysLtB_appendKV : ∀ (o : JObj) (k k2 : String) (v : JValue),
    o.keysLtB k2 = true → keyLt k k2 = true →
    (o.appendKV k v).keysLtB k2 = true
  | .nil, k, k2, v, _, h2 => by
    simp [JObj.appendKV, JObj.keysLtB, h2]
  | .cons k' v' t, k, k2, v, h1, h2 => by
    simp only [JObj.keysLtB, Bool.and_eq_true] at h1
    simp only [JObj.appendKV, JObj.keysLtB, Bool.and_eq_true]
    exact ⟨h1.1, keysLtB_appendKV t k k2 v h1.2 h2⟩

theorem string_eta (s : String) : String.mk s.data = s := rfl

/-- Append an object's bindings (in order) at the end of an accumulator. -/
def JObj.appendAll : JObj → JObj → JObj
  | acc, .nil => acc
  | acc, .cons k v t => (acc.appendKV k v).appendAll t

theorem appendAll_cons : ∀ (t acc : JObj) (k : String) (v : JValue),
    (JObj.cons k v acc).appendAll t = JObj.cons k v (acc.appendAll t)
  | .nil, acc, k, v => rfl
  | .cons k2 v2 t2, acc, k, v => by
    simp only [JObj.appendAll, JObj.appendKV]
    exact appendAll_cons t2 (acc.appendKV k2 v2) k v

theorem appendAll_nil : ∀ (t : JObj), JObj.nil.appendAll t = t
  | .nil => rfl
  | .cons k v t2 => by
    simp only [JObj.appendAll, JObj.appendKV]
    rw [appendAll_cons, appendAll_nil t2]

theorem delimOk_nil : DelimOk [] := by
  intro c h
  simp at h

theorem delimOk_cons {c : Char} (h : c.isDigit = false) (r : List Char) :
    DelimOk (c :: r) := by
  intro c2 h2
  simp only [List.head?] at h2
  injection h2 with h3
  rw [← h3]
  exact h

theorem delimOk_arrTail (t : JArr) (rest : List Char) :
    DelimOk (t.marshalTail ++ ']' :: rest) := by
  cases t with
  | nil => exact delimOk_cons (by decide) rest
  | cons v t2 => exact delimOk_cons (by decide) _

theorem delimOk_objTail (t : JObj) (rest : List Char) :
    DelimOk (t.marshalTail ++ '}' :: rest) := by
  cases t with
  | nil => exact delimOk_cons (by decide) rest
  | cons k v t2 => exact delimOk_cons (by decide) _

/-- The first character of a marshalled value is never whitespace nor a
closing bracket. -/
theorem marshal_head : ∀ (v : JValue), ∃ c t, v.marshal = c :: t ∧
    ¬(c = ' ' ∨ c = '\t' ∨ c = '\n' ∨ c = '\r') ∧ ¬c = ']' ∧ ¬c = '}'
  | .null => ⟨'n', _, rfl, by decide, by decide, by decide⟩
  | .bool true => ⟨'t', _, rfl, by decide, by decide, by decide⟩
  | .bool false => ⟨'f', _, rfl, by decide, by decide, by decide⟩
  | .str s => ⟨'"', _, rfl, by decide, by decide, by decide⟩
  | .arr .nil => ⟨'[', _, rfl, by decide, by decide, by decide⟩
  | .arr (.cons v t) => ⟨'[', _, rfl, by decide, by decide, by decide⟩
  | .obj .nil => ⟨'{', _, rfl, by decide, by decide, by decide⟩
  | .obj (.cons k v t) => ⟨'{', _, rfl, by decide, by decide, by decide⟩
  | .num n => by
    simp only [JValue.marshal, intStr]
    by_cases hneg : n < 0
    · rw [if_pos hneg]
      exact ⟨'-', _, rfl, by decide, by decide, by decide⟩
    · rw [if_neg hneg]
      obtain ⟨c, ds, hns, hdig, _⟩ := natStr_shape n.toNat
      have hf := isDigit_char_facts hdig
      have hb := isDigit_bounds hdig
      refine ⟨c, ds, hns, hf.2.2.2.2.2.2.2, ?_, ?_⟩
      · intro he
        subst he
        revert hb
        decide
      · intro he
        subst he
        revert hb
        decide

theorem parseValue_null (f : Nat) (rest : List Char) :
    parseValue (f + 1) ('n' :: 'u' :: 'l' :: 'l' :: rest) = some (.null, rest) := by
  conv_lhs => rw [parseValue.eq_def]
  simp only
  rw [skipWs_cons _ _ (by decide)]
  simp +decide only
  simp +decide

theorem parseValue_true (f : Nat) (rest : List Char) :
    parseValue (f + 1) ('t' :: 'r' :: 'u' :: 'e' :: rest) = some (.bool true, rest) := by
  conv_lhs => rw [parseValue.eq_def]
  simp only
  rw [skipWs_cons _ _ (by decide)]
  simp +decide only
  simp +decide

theorem parseValue_false (f : Nat) (rest : List Char) :
    parseValue (f + 1) ('f' :: 'a' :: 'l' :: 's' :: 'e' :: rest) =
      some (.bool false, rest) := by
  conv_lhs => rw [parseValue.eq_def]
  simp only
  rw [skipWs_cons _ _ (by decide)]
  simp +decide only
  simp +decide

theorem parseValue_str (f : Nat) (s : String) (rest : List Char) :
    parseValue (f + 1) (marshalStr s ++ rest) = some (.str s, rest) := by
  conv_lhs => rw [parseValue.eq_def]
  simp only [marshalStr, List.cons_append, List.append_assoc, List.cons_append,
    List.nil_append]
  rw [skipWs_cons _ _ (by decide)]
  simp +decide only
  simp +decide only [if_true, if_false]
  rw [parseStringChars_marshal s.data rest]
  simp [string_eta]

theorem parseValue_arrNil (f : Nat) (rest : List Char) :
    parseValue (f + 1) ('[' :: ']' :: rest) = some (.arr .nil, rest) := by
  conv_lhs => rw [parseValue.eq_def]
  simp only
  rw [skipWs_cons _ _ (by decide)]
  simp +decide only
  simp +decide only [if_true, if_false]
  rw [skipWs_cons _ _ (by decide)]
  simp +decide

theorem parseValue_objNil (f : Nat) (rest : List Char) :
    parseValue (f + 1) ('{' :: '}' :: rest) = some (.obj .nil, rest) := by
  conv_lhs => rw [parseValue.eq_def]
  simp only
  rw [skipWs_cons _ _ (by decide)]
  simp +decide only
  simp +decide only [if_true, if_false]
  rw [skipWs_cons _ _ (by decide)]
  simp +decide

theorem keysLtB_mono : ∀ (o : JObj) {k k2 : String},
    o.keysLtB k = true → keyLt k k2 = true → o.keysLtB k2 = true
  | .nil, _, _, _, _ => rfl
  | .cons k' v' t, k, k2, h1, h2 => by
    simp only [JObj.keysLtB, Bool.and_eq_true] at h1 ⊢
    exact ⟨keyLt_trans h1.1 h2, keysLtB_mono t h1.2 h2⟩

theorem keysGtB_mono : ∀ (o : JObj) {k k2 : String},
    o.keysGtB k = true → keyLt k2 k = true → o.keysGtB k2 = true
  | .nil, _, _, _, _ => rfl
  | .cons k' v' t, k, k2, h1, h2 => by
    simp only [JObj.keysGtB, Bool.and_eq_true] at h1 ⊢
    exact ⟨keyLt_trans h2 h1.1, keysGtB_mono t h1.2 h2⟩

theorem keysGtB_insertMember : ∀ (o : JObj) {k0 k : String} (v : JValue),
    o.keysGtB k0 = true → keyLt k0 k = true →
    (o.insertMember k v).keysGtB k0 = true
  | .nil, k0, k, v, _, h2 => by
    simp [JObj.insertMember, JObj.keysGtB, h2]
  | .cons k' v' t, k0, k, v, h1, h2 => by
    simp only [JObj.keysGtB, Bool.and_eq_true] at h1
    simp only [JObj.insertMember]
    by_cases hlt : keyLt k k' = true
    · rw [if_pos hlt]
      simp only [JObj.keysGtB, Bool.and_eq_true]
      exact ⟨h2, h1.1, h1.2⟩
    · rw [if_neg hlt]
      by_cases heq : k = k'
      · rw [if_pos heq]
        simp only [JObj.keysGtB, Bool.and_eq_true]
        subst heq
        exact ⟨h2, h1.2⟩
      · rw [if_neg heq]
        simp only [JObj.keysGtB, Bool.and_eq_true]
        exact ⟨h1.1, keysGtB_insertMember t v h1.2 h2⟩

theorem insertMember_canon : ∀ (o : JObj) (k : String) (v : JValue),
    canonO o = true → canonV v = true →
    canonO (o.insertMember k v) = true
  | .nil, k, v, _, hv => by
    simp [JObj.insertMember, canonO, JObj.keysGtB, hv]
  | .cons k' v' t, k, v, ho, hv => by
    simp only [canonO, Bool.and_eq_true] at ho
    obtain ⟨⟨hv', ht⟩, hgt⟩ := ho
    simp only [JObj.insertMember]
    by_cases hlt : keyLt k k' = true
    · rw [if_pos hlt]
      simp only [canonO, JObj.keysGtB, Bool.and_eq_true]
      exact ⟨⟨hv, ⟨hv', ht⟩, hgt⟩, hlt, keysGtB_mono t hgt hlt⟩
    · rw [if_neg hlt]
      by_cases heq : k = k'
      · rw [if_pos heq]
        subst heq
        simp only [canonO, Bool.and_eq_true]
        exact ⟨⟨hv, ht⟩, hgt⟩
      · rw [if_neg heq]
        have hlt' : keyLt k k' = false := by
          revert hlt
          cases keyLt k k' <;> simp
        have hgtk : keyLt k' k = true := by
          cases hh : keyLt k' k
          · exact absurd (keyLt_connex hlt' hh) heq
          · rfl
        simp only [canonO, Bool.and_eq_true]
        exact ⟨⟨hv', insertMember_canon t k v ht hv⟩,
          keysGtB_insertMember t v hgt hgtk⟩

mutual

/-- Parsing the marshalled form of a canonical value recovers it exactly. -/
theorem marshal_parseV : ∀ (v : JValue) (fuel : Nat) (rest : List Char),
    canonV v = true → needV v ≤ fuel → DelimOk rest →
    parseValue fuel (v.marshal ++ rest) = some (v, rest)
  | .null, fuel, rest, _, hf, _ => by
    have h1 : 1 ≤ fuel := le_trans (by simp [needV]) hf
    obtain ⟨f, rfl⟩ : ∃ f, fuel = f + 1 := ⟨fuel - 1, by omega⟩
    simp only [JValue.marshal, List.cons_append, List.nil_append]
    exact parseValue_null f rest
  | .bool true, fuel, rest, _, hf, _ => by
    have h1 : 1 ≤ fuel := le_trans (by simp [needV]) hf
    obtain ⟨f, rfl⟩ : ∃ f, fuel = f + 1 := ⟨fuel - 1, by omega⟩
    simp only [JValue.marshal, List.cons_append, List.nil_append]
    exact parseValue_true f rest
  | .bool false, fuel, rest, _, hf, _ => by
    have h1 : 1 ≤ fuel := le_trans (by simp [needV]) hf
    obtain ⟨f, rfl⟩ : ∃ f, fuel = f + 1 := ⟨fuel - 1, by omega⟩
    simp only [JValue.marshal, List.cons_append, List.nil_append]
    exact parseValue_false f rest
  | .num n, fuel, rest, _, hf, hD => by
    have h1 : 1 ≤ fuel := le_trans (by simp [needV]) hf
    simp only [JValue.marshal]
    exact parseValue_num n rest fuel hD h1
  | .str s, fuel, rest, _, hf, _ => by
    have h1 : 1 ≤ fuel := le_trans (by simp [needV]) hf
    obtain ⟨f, rfl⟩ : ∃ f, fuel = f + 1 := ⟨fuel - 1, by omega⟩
    simp only [JValue.marshal]
    exact parseValue_str f s rest
  | .arr .nil, fuel, rest, _, hf, _ => by
    have h1 : 1 ≤ fuel := le_trans (by simp [needV]) hf
    obtain ⟨f, rfl⟩ : ∃ f, fuel = f + 1 := ⟨fuel - 1, by omega⟩
    simp only [JValue.marshal, List.cons_append, List.nil_append]
    exact parseValue_arrNil f rest
  | .obj .nil, fuel, rest, _, hf, _ => by
    have h1 : 1 ≤ fuel := le_trans (by simp [needV]) hf
    obtain ⟨f, rfl⟩ : ∃ f, fuel = f + 1 := ⟨fuel - 1, by omega⟩
    simp only [JValue.marshal, List.cons_append, List.nil_append]
    exact parseValue_objNil f rest
  | .arr (.cons v t), fuel, rest, hc, hf, hD => by
    have hc' : canonV v = true ∧ canonA t = true := by
      simpa [canonV, canonA] using hc
    have hf' : 1 + (1 + needV v + needI t) ≤ fuel := by
      simpa [needV, needI] using hf
    obtain ⟨f, rfl⟩ : ∃ f, fuel = f + 1 := ⟨fuel - 1, by omega⟩
    conv_lhs => rw [parseValue.eq_def]
    simp only [JValue.marshal, List.cons_append, List.append_assoc,
      List.nil_append]
    rw [skipWs_cons _ _ (by decide)]
    simp +decide only
    simp +decide only [if_true, if_false]
    obtain ⟨c, cs, hm, hws, hbr, _⟩ := marshal_head v
    rw [hm, List.cons_append, skipWs_cons _ _ hws]
    rw [← List.cons_append, ← hm]
    split
    · next r heq =>
      exfalso
      rw [hm, List.cons_append] at heq
      injection heq with h1 _
      exact hbr h1
    · next other heq =>
      rw [marshal_parseI v t f rest hc'.1 hc'.2 (by omega) hD]
      simp only [Option.bind_eq_bind, Option.some_bind]
  | .obj (.cons k v t), fuel, rest, hc, hf, hD => by
    have hc' : (canonV v = true ∧ canonO t = true) ∧ t.keysGtB k = true := by
      simpa [canonV, canonO] using hc
    have hf' : 1 + (1 + needV v + needM t) ≤ fuel := by
      simpa [needV, needM] using hf
    obtain ⟨f, rfl⟩ : ∃ f, fuel = f + 1 := ⟨fuel - 1, by omega⟩
    conv_lhs => rw [parseValue.eq_def]
    simp only [JValue.marshal, List.cons_append, List.append_assoc,
      List.nil_append]
    rw [skipWs_cons _ _ (by decide)]
    simp +decide only
    simp +decide only [if_true, if_false]
    rw [show marshalStr k ++ ':' :: (v.marshal ++ (t.marshalTail ++ '}' :: rest)) =
      ('"' : Char) :: ((marshalStringChars k.data ++ ['"']) ++
        (':' :: (v.marshal ++ (t.marshalTail ++ '}' :: rest)))) from by
      simp [marshalStr]]
    rw [skipWs_cons _ _ (by decide)]
    split
    · next r heq =>
      exfalso
      injection heq with h1 _
      exact absurd h1 (by decide)
    · next other heq =>
      rw [show ('"' : Char) :: ((marshalStringChars k.data ++ ['"']) ++
          (':' :: (v.marshal ++ (t.marshalTail ++ '}' :: rest)))) =
        marshalStr k ++ (':' :: (v.marshal ++ (t.marshalTail ++ ('}' :: rest))))
        from by simp [marshalStr]]
      rw [marshal_parseM k v t .nil f rest hc'.1.1 hc'.1.2 hc'.2 rfl
        (by omega) hD]
      simp only [Option.bind_eq_bind, Option.some_bind, appendAll_nil]
  
termination_by v _ _ _ _ _ => sizeOf v

/-- Parsing the marshalled items of a nonempty array (after the opening
bracket) recovers them. -/
theorem marshal_parseI : ∀ (v : JValue) (t : JArr) (fuel : Nat) (rest : List Char),
    canonV v = true → canonA t = true → 1 + needV v + needI t ≤ fuel →
    DelimOk rest →
    parseItems fuel (v.marshal ++ (t.marshalTail ++ (']' :: rest))) =
      some (.cons v t, rest)
  | v, t, fuel, rest, hcv, hct, hf, hD => by
    obtain ⟨f, rfl⟩ : ∃ f, fuel = f + 1 := ⟨fuel - 1, by omega⟩
    conv_lhs => rw [parseItems.eq_def]
    simp only
    rw [marshal_parseV v f _ hcv (by omega) (delimOk_arrTail t rest)]
    simp only [Option.bind_eq_bind, Option.some_bind]
    cases t with
    | nil =>
      simp only [JArr.marshalTail, List.nil_append]
      rw [skipWs_cons _ _ (by decide)]
      simp +decide
    | cons v2 t2 =>
      have hc2 : canonV v2 = true ∧ canonA t2 = true := by
        simpa [canonA] using hct
      have hfi : 1 + needV v2 + needI t2 ≤ f := by
        have : needI (.cons v2 t2) = 1 + needV v2 + needI t2 := by
          simp [needI]
        omega
      simp only [JArr.marshalTail, List.cons_append, List.append_assoc]
      rw [skipWs_cons _ _ (by decide)]
      simp +decide only
      simp +decide only [if_true, if_false]
      rw [marshal_parseI v2 t2 f rest hc2.1 hc2.2 hfi hD]
      rfl

termination_by v t _ _ _ _ _ _ => sizeOf v + sizeOf t + 1

/-- Parsing the marshalled members of a nonempty object (after the opening
brace) appends them, in order, to the accumulator, provided every
accumulator key precedes every remaining key. -/
theorem marshal_parseM : ∀ (k : String) (v : JValue) (t : JObj) (acc : JObj)
    (fuel : Nat) (rest : List Char),
    canonV v = true → canonO t = true → t.keysGtB k = true →
    acc.keysLtB k = true → 1 + needV v + needM t ≤ fuel → DelimOk rest →
    parseMembers fuel acc
        (marshalStr k ++ (':' :: (v.marshal ++ (t.marshalTail ++ ('}' :: rest))))) =
      some (acc.appendAll (.cons k v t), rest)
  | k, v, t, acc, fuel, rest, hcv, hct, hgt, hacc, hf, hD => by
    obtain ⟨f, rfl⟩ : ∃ f, fuel = f + 1 := ⟨fuel - 1, by omega⟩
    conv_lhs => rw [parseMembers.eq_def]
    simp only [marshalStr, List.cons_append, List.append_assoc,
      List.nil_append]
    rw [skipWs_cons _ _ (by decide)]
    simp +decide only
    simp +decide only [if_true, if_false]
    rw [parseStringChars_marshal k.data]
    simp only [Option.bind_eq_bind, Option.some_bind]
    rw [skipWs_cons _ _ (by decide)]
    simp +decide only
    simp +decide only [if_true, if_false]
    rw [marshal_parseV v f _ hcv (by omega) (delimOk_objTail t rest)]
    simp only [Option.bind_eq_bind, Option.some_bind, string_eta]
    rw [insertMember_eq_appendKV acc k v hacc]
    cases t with
    | nil =>
      simp only [JObj.marshalTail, List.nil_append]
      rw [skipWs_cons _ _ (by decide)]
      simp +decide only
      simp +decide only [if_true, if_false]
      simp [JObj.appendAll]
    | cons k2 v2 t2 =>
      have hc2 : (canonV v2 = true ∧ canonO t2 = true) ∧
          t2.keysGtB k2 = true := by
        simpa [canonO] using hct
      have hg2 : keyLt k k2 = true ∧ t2.keysGtB k = true := by
        simpa [JObj.keysGtB] using hgt
      have hfm : 1 + needV v2 + needM t2 ≤ f := by
        have : needM (.cons k2 v2 t2) = 1 + needV v2 + needM t2 := by
          simp [needM]
        omega
      simp only [JObj.marshalTail, List.cons_append, List.append_assoc]
      rw [skipWs_cons _ _ (by decide)]
      simp +decide only
      simp +decide only [if_true, if_false]
      rw [marshal_parseM k2 v2 t2 (acc.appendKV k v) f rest hc2.1.1 hc2.1.2
        hc2.2 (keysLtB_appendKV acc k k2 v (keysLtB_mono acc hacc hg2.1) hg2.1)
        hfm hD]
      simp [JObj.appendAll]

termination_by k v t _ _ _ _ _ _ _ _ _ => sizeOf v + sizeOf t + 1

end

mutual

theorem needV_le : ∀ (v : JValue), needV v ≤ v.marshal.length
  | .null => by simp [needV, JValue.marshal]
  | .bool true => by simp [needV, JValue.marshal]
  | .bool false => by simp [needV, JValue.marshal]
  | .num n => by
    simp only [needV, JValue.marshal, intStr]
    by_cases hneg : n < 0
    · rw [if_pos hneg]
      simp
    · rw [if_neg hneg]
      obtain ⟨c, ds, hns, _, _⟩ := natStr_shape n.toNat
      rw [hns]
      simp
  | .str s => by simp [needV, JValue.marshal, marshalStr]
  | .arr .nil => by simp [needV, needI, JValue.marshal]
  | .arr (.cons v t) => by
    have h1 := needV_le v
    have h2 := needI_le t
    simp only [needV, needI, JValue.marshal, List.length_cons,
      List.length_append, List.length_singleton]
    omega
  | .obj .nil => by simp [needV, needM, JValue.marshal]
  | .obj (.cons k v t) => by
    have h1 := needV_le v
    have h2 := needM_le t
    simp only [needV, needM, JValue.marshal, List.length_cons,
      List.length_append, List.length_singleton]
    omega

theorem needI_le : ∀ (t : JArr), needI t ≤ t.marshalTail.length
  | .nil => by simp [needI, JArr.marshalTail]
  | .cons v t => by
    have h1 := needV_le v
    have h2 := needI_le t
    simp only [needI, JArr.marshalTail, List.length_cons, List.length_append]
    omega

theorem needM_le : ∀ (t : JObj), needM t ≤ t.marshalTail.length
  | .nil => by simp [needM, JObj.marshalTail]
  | .cons k v t => by
    have h1 := needV_le v
    have h2 := needM_le t
    simp only [needM, JObj.marshalTail, marshalStr, List.length_cons,
      List.length_append, List.length_singleton]
    omega

end


theorem optBind_eq_some {α β : Type} {x : Option α} {f : α → Option β} {b : β}
    (h : x >>= f = some b) : ∃ a, x = some a ∧ f a = some b := by
  cases x with
  | none => exact Option.noConfusion h
  | some a => exact ⟨a, rfl, h⟩

set_option maxHeartbeats 1600000 in
/-- Every value produced by the parser is canonical: objects are key-sorted
at every level (the decoder inserts members in sorted order). -/
theorem parse_canon : ∀ fuel : Nat,
    (∀ s v r, parseValue fuel s = some (v, r) → canonV v = true) ∧
    (∀ s a r, parseItems fuel s = some (a, r) → canonA a = true) ∧
    (∀ acc s o r, canonO acc = true → parseMembers fuel acc s = some (o, r) →
      canonO o = true) := by
  intro fuel
  induction fuel with
  | zero =>
    refine ⟨?_, ?_, ?_⟩
    · intro s v r h
      simp [parseValue] at h
    · intro s a r h
      simp [parseItems] at h
    · intro acc s o r _ h
      simp [parseMembers] at h
  | succ f ih =>
    obtain ⟨ihV, ihI, ihM⟩ := ih
    refine ⟨?_, ?_, ?_⟩
    · intro s v r h
      simp only [parseValue] at h
      split at h
      · exact Option.noConfusion h
      · split_ifs at h <;>
          first
            | exact Option.noConfusion h
            | (simp only [Option.some.injEq, Prod.mk.injEq] at h
               rw [← h.1]
               rfl)
            | (obtain ⟨⟨a2, r4⟩, hw, h2⟩ := optBind_eq_some h
               simp only [Option.some.injEq, Prod.mk.injEq] at h2
               rw [← h2.1]
               first
                 | rfl
                 | exact ihI _ _ _ hw
                 | exact ihM JObj.nil _ _ _ rfl hw)
            | (split at h <;>
                first
                  | exact Option.noConfusion h
                  | (simp only [Option.some.injEq, Prod.mk.injEq] at h
                     rw [← h.1]
                     rfl)
                  | (split_ifs at h <;>
                      first
                        | exact Option.noConfusion h
                        | (simp only [Option.some.injEq, Prod.mk.injEq] at h
                           rw [← h.1]
                           rfl))
                  | (obtain ⟨⟨a2, r4⟩, hw, h2⟩ := optBind_eq_some h
                     simp only [Option.some.injEq, Prod.mk.injEq] at h2
                     rw [← h2.1]
                     first
                       | rfl
                       | exact ihI _ _ _ hw
                       | exact ihM JObj.nil _ _ _ rfl hw))
    · intro s a r h
      simp only [parseItems] at h
      obtain ⟨⟨v, r1⟩, hpv, h2⟩ := optBind_eq_some h
      split at h2
      · exact Option.noConfusion h2
      · split_ifs at h2 <;>
          first
            | exact Option.noConfusion h2
            | (simp only [Option.some.injEq, Prod.mk.injEq] at h2
               obtain ⟨h2a, h2b⟩ := h2
               subst h2a
               simp only [canonA, Bool.and_eq_true]
               exact ⟨ihV _ _ _ hpv, trivial⟩)
            | (obtain ⟨⟨t2, r3⟩, hpi, h3⟩ := optBind_eq_some h2
               simp only [Option.some.injEq, Prod.mk.injEq] at h3
               obtain ⟨h3a, h3b⟩ := h3
               subst h3a
               simp only [canonA, Bool.and_eq_true]
               exact ⟨ihV _ _ _ hpv, ihI _ _ _ hpi⟩)
    · intro acc s o r hacc h
      simp only [parseMembers] at h
      split at h
      · exact Option.noConfusion h
      · split_ifs at h <;>
          first
            | exact Option.noConfusion h
            | (obtain ⟨⟨ks, r1⟩, hps, h2⟩ := optBind_eq_some h
               split at h2
               · exact Option.noConfusion h2
               · split_ifs at h2 <;>
                   first
                     | exact Option.noConfusion h2
                     | (obtain ⟨⟨v, r3⟩, hpv, h3⟩ := optBind_eq_some h2
                        have hacc2 := insertMember_canon acc (String.mk ks) v hacc
                          (ihV _ _ _ hpv)
                        split at h3
                        · exact Option.noConfusion h3
                        · split_ifs at h3 <;>
                            first
                              | exact Option.noConfusion h3
                              | exact ihM _ _ _ _ hacc2 h3
                              | (simp only [Option.some.injEq, Prod.mk.injEq] at h3
                                 rw [← h3.1]
                                 exact hacc2)))

/-- Marshalling a canonical top-level value (object or null) and decoding
the line recovers it exactly. -/
theorem parseLine_marshal (v : JValue) (hc : canonV v = true)
    (hok : v = .null ∨ ∃ o, v = .obj o) :
    parseLine (jsonMarshal v) = some v := by
  unfold parseLine jsonMarshal
  have hfuel : needV v ≤ (String.mk v.marshal).data.length + 1 := by
    show needV v ≤ v.marshal.length + 1
    have := needV_le v
    omega
  have hpv : parseValue ((String.mk v.marshal).data.length + 1)
      (String.mk v.marshal).data = some (v, []) := by
    have h2 := marshal_parseV v ((String.mk v.marshal).data.length + 1) []
      hc hfuel delimOk_nil
    simpa using h2
  rw [hpv]
  simp only [skipWs, if_pos]
  rcases hok with h | ⟨o, h⟩ <;> subst h <;> simp

/-- Every successfully decoded line is canonical and is an object or
null at top level. -/
theorem parseLine_shape_canon {line : String} {v : JValue}
    (h : parseLine line = some v) :
    canonV v = true ∧ (v = .null ∨ ∃ o, v = .obj o) := by
  unfold parseLine at h
  split at h
  · rename_i v0 rest heq
    have hcan := (parse_canon (line.data.length + 1)).1 _ _ _ heq
    split_ifs at h
    cases v0 with
    | null =>
      simp only [Option.some.injEq] at h
      subst h
      exact ⟨hcan, .inl rfl⟩
    | obj o =>
      simp only [Option.some.injEq] at h
      subst h
      exact ⟨hcan, .inr ⟨o, rfl⟩⟩
    | bool b => exact Option.noConfusion h
    | num n => exact Option.noConfusion h
    | str s => exact Option.noConfusion h
    | arr x => exact Option.noConfusion h
  · exact Option.noConfusion h

/-- C6: in json output mode, every decoded record accepted by the filter
is emitted as the re-serialization of the original decoded record (with
the display state untouched), and parsing the emitted line back yields a
value deep-equal to the original decoded record. -/
theorem C6_json_round_trip
    (ext : ExtEnv) (cfg : Config) (line : String) (entry : JValue)
    (tu : ToolUseMap) (ti : ToolInputMap) (st : DState)
    (hdec : parseLine line = some entry)
    (hjson : cfg.OutputFormat = "json")
    (hacc : shouldDisplayEntryWithToolInfo cfg (jGetStringD entry "type")
      entry tu = true) :
    displayEntryWithToolInfo ext cfg entry tu ti st =
      (jsonMarshal entry ++ "\n", st) ∧
    parseLine (jsonMarshal entry) = some entry := by
  constructor
  · simp [displayEntryWithToolInfo, displayEntryAsJSON, hacc, hjson]
  · obtain ⟨hcan, hok⟩ := parseLine_shape_canon hdec
    exact parseLine_marshal entry hcan hok

def ext6 : ExtEnv :=
  { parseTime := fun _ => none
    fmtHMS := fun _ => ""
    costStr := fun _ _ => none }

def cfg6 : Config := { OutputFormat := "json" }

def jline6 : String := "\x7b\"type\":\"user\"\x7d"

def jentry6 : JValue := .obj (.cons "type" (.str "user") .nil)

theorem C6_json_round_trip_witness :
    parseLine jline6 = some jentry6 ∧
    cfg6.OutputFormat = "json" ∧
    shouldDisplayEntryWithToolInfo cfg6 (jGetStringD jentry6 "type")
      jentry6 [] = true ∧
    displayEntryWithToolInfo ext6 cfg6 jentry6 [] [] ⟨none⟩ =
      (jsonMarshal jentry6 ++ "\n", ⟨none⟩) ∧
    parseLine (jsonMarshal jentry6) = some jentry6 := by
  have h := C6_json_round_trip ext6 cfg6 jline6 jentry6 [] [] ⟨none⟩
    (by rfl) rfl (by rfl)
  exact ⟨by rfl, rfl, by rfl, h.1, h.2⟩
